import Mathlib

/-!
# Persistent red-black tree of the word index (FPROG)

Verification development for `src/FPROG_Project/FPROG_Project/main.cpp`
(and its near-duplicate `src/FPROG_Project/main.cpp`).

The C++ tree is a graph of reference-counted `Node<T>` objects.  `insertHelper`
assigns to `node->left` / `node->right` of the node it visits before it copies
that node, so the code is modelled at two levels:

* the *store level* (`FPROG.*`): nodes live in an explicit store (a list indexed
  by address), `make_shared` appends a node, the assignments of `insertHelper`
  overwrite a cell, and reading through a null pointer has no result (`none`);
* the *value level* (`FPROG.Tree.*`): the tree denoted by a pointer, as an
  inductive type, with the functions the store-level code computes on it.

`Located`, `Holds` and `Denotes` relate the two levels: `Located.insertHelper_sim` and
`Denotes.insert_sim` show that on a tree-shaped store the store-level `insert` returns a
pointer denoting the value-level `insert` of the denoted tree.

Two ways of calling `insert` are told apart.  `build tokens` is the chain that `main` folds
from the empty tree, each `insert` applied to the tree the previous one returned.
`runProgram calls` is any finite sequence of `insert` calls, where a call may insert into a
tree that an earlier call has already inserted into.  Since `insertHelper` overwrites child
pointers of the tree it is given, the colour and height invariants hold on chains
(`build_no_red_red`, `build_uniform_black_height`, `build_height_logarithmic`,
`build_left_leaning`, `duplicate_insert_same_tree`) and fail for some call sequences
(`reused_tree_red_red` and the theorems after it).

Recursion over pointers takes a depth bound as first argument and has no result when the
bound is used up; `insert` and `inOrder` pass the store size plus one, which no path of a
tree-shaped store reaches (`Located.height_le_length`).
-/

namespace FPROG

/-- Node colour, `enum class Color { RED, BLACK }`. -/
inductive Color where
  | RED
  | BLACK
  deriving DecidableEq

/-- A `NodePtr<T>`: `none` is `nullptr`, `some a` points to the cell at address `a`. -/
abbrev NodePtr := Option Nat

/-- The `struct Node<T>`: value, colour and the two child pointers. -/
structure Node (α : Type) where
  value : α
  color : Color
  left : NodePtr
  right : NodePtr
  deriving DecidableEq

/-- The node store: the cell at index `a` is the object at address `a`. -/
abbrev Store (α : Type) := List (Node α)

/-- Allocation `std::make_shared<Node<T>>(...)`: a fresh cell at the end of the store. -/
def alloc {α : Type} (s : Store α) (n : Node α) : Store α × NodePtr :=
  (s ++ [n], some s.length)

/-- Dereference `*p`; no result for a null pointer or an address outside the store. -/
def deref {α : Type} (s : Store α) (p : NodePtr) : Option (Node α) :=
  match p with
  | none => none
  | some a => s[a]?

/-- The read `p->left`. -/
def getLeft {α : Type} (s : Store α) (p : NodePtr) : Option NodePtr :=
  (deref s p).map Node.left

/-- The read `p->right`. -/
def getRight {α : Type} (s : Store α) (p : NodePtr) : Option NodePtr :=
  (deref s p).map Node.right

/-- The assignment `node->left = p` on the cell at address `a`. -/
def setLeft {α : Type} (s : Store α) (a : Nat) (p : NodePtr) : Option (Store α) :=
  match s[a]? with
  | none => none
  | some n => some (s.set a (Node.mk n.value n.color p n.right))

/-- The assignment `node->right = p` on the cell at address `a`. -/
def setRight {α : Type} (s : Store α) (a : Nat) (p : NodePtr) : Option (Store α) :=
  match s[a]? with
  | none => none
  | some n => some (s.set a (Node.mk n.value n.color n.left p))

/-- Source `isRed`: `node && node->color == Color::RED`. -/
def isRed {α : Type} (s : Store α) (node : NodePtr) : Option Bool :=
  match node with
  | none => some false
  | some a => (s[a]?).map (fun n => decide (n.color = Color.RED))

/-- Source `rotateLeft`: returns `node` itself when it or its right child is null. -/
def rotateLeft {α : Type} (s : Store α) (node : NodePtr) : Option (Store α × NodePtr) :=
  match node with
  | none => some (s, none)
  | some a =>
    match s[a]? with
    | none => none
    | some n =>
      match n.right with
      | none => some (s, some a)
      | some ra =>
        match s[ra]? with
        | none => none
        | some r =>
          let (s1, inner) := alloc s (Node.mk n.value Color.RED n.left r.left)
          some (alloc s1 (Node.mk r.value n.color inner r.right))

/-- Source `rotateRight`: reads `node->left->...` without a null test. -/
def rotateRight {α : Type} (s : Store α) (node : NodePtr) : Option (Store α × NodePtr) :=
  match deref s node with
  | none => none
  | some n =>
    match deref s n.left with
    | none => none
    | some l =>
      let (s1, inner) := alloc s (Node.mk n.value Color.RED l.right n.right)
      some (alloc s1 (Node.mk l.value n.color l.left inner))

/-- Source `recolor`: reads both children without a null test. -/
def recolor {α : Type} (s : Store α) (node : NodePtr) : Option (Store α × NodePtr) :=
  match deref s node with
  | none => none
  | some n =>
    match deref s n.left, deref s n.right with
    | some l, some r =>
      let (s1, nl) := alloc s (Node.mk l.value Color.BLACK l.left l.right)
      let (s2, nr) := alloc s1 (Node.mk r.value Color.BLACK r.left r.right)
      some (alloc s2 (Node.mk n.value Color.RED nl nr))
    | _, _ => none

/-- Guard of the first fix-up: `isRed(newNode->right) && !isRed(newNode->left)`. -/
def guardRotateLeft {α : Type} (s : Store α) (p : NodePtr) : Option Bool := do
  let r ← getRight s p
  let rr ← isRed s r
  if rr then
    let l ← getLeft s p
    let lr ← isRed s l
    pure (!lr)
  else pure false

/-- Guard of the second fix-up: `isRed(newNode->left) && isRed(newNode->left->left)`. -/
def guardRotateRight {α : Type} (s : Store α) (p : NodePtr) : Option Bool := do
  let l ← getLeft s p
  let lr ← isRed s l
  if lr then
    let ll ← getLeft s l
    isRed s ll
  else pure false

/-- Guard of the third fix-up: `isRed(newNode->left) && isRed(newNode->right)`. -/
def guardRecolor {α : Type} (s : Store α) (p : NodePtr) : Option Bool := do
  let l ← getLeft s p
  let lr ← isRed s l
  if lr then
    let r ← getRight s p
    isRed s r
  else pure false

/-- One fix-up statement `if (guard) newNode = f(newNode);`: no result when evaluating the
guard reads through a null pointer. -/
def applyIf {α : Type} (guard : Option Bool)
    (f : Store α → NodePtr → Option (Store α × NodePtr)) (s : Store α) (p : NodePtr) :
    Option (Store α × NodePtr) :=
  match guard with
  | none => none
  | some true => f s p
  | some false => some (s, p)

/-- The three fix-up statements of `insertHelper`, in source order, applied to `p`. -/
def fixups {α : Type} (s : Store α) (p : NodePtr) : Option (Store α × NodePtr) :=
  match applyIf (guardRotateLeft s p) rotateLeft s p with
  | none => none
  | some (s1, p1) =>
    match applyIf (guardRotateRight s1 p1) rotateRight s1 p1 with
    | none => none
    | some (s2, p2) => applyIf (guardRecolor s2 p2) recolor s2 p2

/-- The tail of `insertHelper` (main.cpp lines 74-88): copy the visited node into a fresh
`newNode`, fix the copy up and return it. -/
def copyAndFix {α : Type} (s : Store α) (a : Nat) : Option (Store α × NodePtr) :=
  match s[a]? with
  | none => none
  | some n =>
    let (s1, newNode) := alloc s (Node.mk n.value n.color n.left n.right)
    fixups s1 newNode

/-- Source `insertHelper`.  The first argument bounds the recursion depth (`none` when it is
used up); the recursive result is stored into the visited node before that node is copied. -/
def insertHelper {α : Type} [LinearOrder α] :
    Nat → Store α → NodePtr → α → Option (Store α × NodePtr)
  | 0, _, _, _ => none
  | _ + 1, s, none, value => some (alloc s (Node.mk value Color.RED none none))
  | fuel + 1, s, some a, value =>
    match s[a]? with
    | none => none
    | some n =>
      if value < n.value then
        match insertHelper fuel s n.left value with
        | none => none
        | some (s1, p) =>
          match setLeft s1 a p with
          | none => none
          | some s2 => copyAndFix s2 a
      else if value > n.value then
        match insertHelper fuel s n.right value with
        | none => none
        | some (s1, p) =>
          match setRight s1 a p with
          | none => none
          | some s2 => copyAndFix s2 a
      else some (s, some a)

/-- A `RedBlackTree<T>` object: its `root` pointer. -/
structure RedBlackTree where
  root : NodePtr
  deriving DecidableEq

/-- The default constructor `RedBlackTree()`: the empty tree. -/
def RedBlackTree.empty : RedBlackTree := RedBlackTree.mk none

/-- Source `insert`: run `insertHelper` from the root and wrap a black copy of the node it
returns.  A search path visits each cell at most once in a tree-shaped store, so the store
size plus one bounds the recursion depth. -/
def insert {α : Type} [LinearOrder α] (s : Store α) (t : RedBlackTree) (value : α) :
    Option (Store α × RedBlackTree) :=
  match insertHelper (s.length + 1) s t.root value with
  | none => none
  | some (s1, newRoot) =>
    match deref s1 newRoot with
    | none => none
    | some n =>
      let (s2, r) := alloc s1 (Node.mk n.value Color.BLACK n.left n.right)
      some (s2, RedBlackTree.mk r)

/-- The lambda `traverse` of source `inOrder`: left subtree, node, right subtree.  The first
argument bounds the recursion depth. -/
def traverse {α : Type} : Nat → Store α → NodePtr → Option (List α)
  | 0, _, _ => none
  | _ + 1, _, none => some []
  | fuel + 1, s, some a =>
    match s[a]? with
    | none => none
    | some n =>
      match traverse fuel s n.left, traverse fuel s n.right with
      | some ls, some rs => some (ls ++ n.value :: rs)
      | _, _ => none

/-- Source `inOrder`: the values met by `traverse` from the root. -/
def inOrder {α : Type} (s : Store α) (t : RedBlackTree) : Option (List α) :=
  traverse (s.length + 1) s t.root

/-- The fold of `main` (lines 200-210): insert the tokens left to right, each insert into the
tree returned by the previous one. -/
def insertAll {α : Type} [LinearOrder α] :
    Store α × RedBlackTree → List α → Option (Store α × RedBlackTree)
  | st, [] => some st
  | st, w :: ws =>
    match insert st.1 st.2 w with
    | none => none
    | some st1 => insertAll st1 ws

/-- The tree `main` builds from a token list: the fold from the empty tree in an empty store. -/
def build {α : Type} [LinearOrder α] (tokens : List α) : Option (Store α × RedBlackTree) :=
  insertAll (([] : Store α), RedBlackTree.empty) tokens

/-- What `main` hands to the writer: `inOrder` of the tree built from the tokens. -/
def sortedWords {α : Type} [LinearOrder α] (tokens : List α) : Option (List α) :=
  match build tokens with
  | none => none
  | some st => inOrder st.1 st.2

/-! ### The variant `src/FPROG_Project/main.cpp`

It differs in `insertHelper` only: the fix-ups are applied to the visited node itself, without
the copy into `newNode`. -/

namespace Variant2

/-- Variant `insertHelper` (src/FPROG_Project/main.cpp lines 56-80): after the assignment to
`node->left` / `node->right` the three fix-ups run on `node` itself. -/
def insertHelper {α : Type} [LinearOrder α] :
    Nat → Store α → NodePtr → α → Option (Store α × NodePtr)
  | 0, _, _, _ => none
  | _ + 1, s, none, value => some (alloc s (Node.mk value Color.RED none none))
  | fuel + 1, s, some a, value =>
    match s[a]? with
    | none => none
    | some n =>
      if value < n.value then
        match insertHelper fuel s n.left value with
        | none => none
        | some (s1, p) =>
          match setLeft s1 a p with
          | none => none
          | some s2 => fixups s2 (some a)
      else if value > n.value then
        match insertHelper fuel s n.right value with
        | none => none
        | some (s1, p) =>
          match setRight s1 a p with
          | none => none
          | some s2 => fixups s2 (some a)
      else some (s, some a)

/-- Variant `insert` (src/FPROG_Project/main.cpp lines 90-94). -/
def insert {α : Type} [LinearOrder α] (s : Store α) (t : RedBlackTree) (value : α) :
    Option (Store α × RedBlackTree) :=
  match insertHelper (s.length + 1) s t.root value with
  | none => none
  | some (s1, newRoot) =>
    match deref s1 newRoot with
    | none => none
    | some n =>
      let (s2, r) := alloc s1 (Node.mk n.value Color.BLACK n.left n.right)
      some (s2, RedBlackTree.mk r)

end Variant2

/-- A finite sequence of `insert` calls as a program can make them through the public
interface.  The call `(i, x)` inserts `x` into the tree with index `i`: index 0 is the empty
tree and index `k + 1` the tree returned by the `k`-th call, so a tree may be inserted into
more than once.  All calls work on the one store.  Returns the store after the last call and
all trees, in the order of their indices. -/
def runCalls {α : Type} [LinearOrder α] :
    Store α × List RedBlackTree → List (Nat × α) → Option (Store α × List RedBlackTree)
  | st, [] => some st
  | st, c :: calls =>
    match st.2[c.1]? with
    | none => none
    | some t =>
      match insert st.1 t c.2 with
      | none => none
      | some st1 => runCalls (st1.1, st.2 ++ [st1.2]) calls

/-- The calls of `runCalls`, started with the empty tree alone in an empty store. -/
def runProgram {α : Type} [LinearOrder α] (calls : List (Nat × α)) :
    Option (Store α × List RedBlackTree) :=
  runCalls (([] : Store α), [RedBlackTree.empty]) calls

/-- Ghost count for `fixups`: how many of the three fix-up statements have a true guard when
`fixups s p` runs (`none` where `fixups` has no result). -/
def fixupsFired {α : Type} (s : Store α) (p : NodePtr) : Option Nat :=
  match guardRotateLeft s p, applyIf (guardRotateLeft s p) rotateLeft s p with
  | some g1, some (s1, p1) =>
    match guardRotateRight s1 p1, applyIf (guardRotateRight s1 p1) rotateRight s1 p1 with
    | some g2, some (s2, p2) =>
      match guardRecolor s2 p2 with
      | some g3 => some (g1.toNat + g2.toNat + g3.toNat)
      | none => none
    | _, _ => none
  | _, _ => none

/-- Ghost count for `copyAndFix`: the fix-ups fired on the fresh copy of the node at `a`. -/
def copyAndFixFired {α : Type} (s : Store α) (a : Nat) : Option Nat :=
  match s[a]? with
  | none => none
  | some n =>
    let (s1, newNode) := alloc s (Node.mk n.value n.color n.left n.right)
    fixupsFired s1 newNode

/-- Ghost count for `insertHelper`: the number of fix-up statements (rotate left, rotate right,
recolor) executed at all visited nodes during `insertHelper fuel s node value`.  It follows the
recursion of `insertHelper` and reads the stores that `insertHelper` produces. -/
def insertHelperFired {α : Type} [LinearOrder α] :
    Nat → Store α → NodePtr → α → Option Nat
  | 0, _, _, _ => none
  | _ + 1, _, none, _ => some 0
  | fuel + 1, s, some a, value =>
    match s[a]? with
    | none => none
    | some n =>
      if value < n.value then
        match insertHelperFired fuel s n.left value, insertHelper fuel s n.left value with
        | some k, some (s1, p) =>
          match setLeft s1 a p with
          | none => none
          | some s2 => (copyAndFixFired s2 a).map (fun j => k + j)
        | _, _ => none
      else if value > n.value then
        match insertHelperFired fuel s n.right value, insertHelper fuel s n.right value with
        | some k, some (s1, p) =>
          match setRight s1 a p with
          | none => none
          | some s2 => (copyAndFixFired s2 a).map (fun j => k + j)
        | _, _ => none
      else some 0

/-! ## Value level: the tree a pointer denotes -/

/-- The tree denoted by a pointer: `nil` for `nullptr`, else colour, left subtree, value and
right subtree of the node it points to. -/
inductive Tree (α : Type) where
  | nil : Tree α
  | node (c : Color) (l : Tree α) (v : α) (r : Tree α) : Tree α
  deriving DecidableEq

namespace Tree

/-- Value-level `isRed`: a present node coloured RED. -/
def isRed {α : Type} : Tree α → Bool
  | node Color.RED _ _ _ => true
  | _ => false

/-- The subtree under `node->left`. -/
def left {α : Type} : Tree α → Tree α
  | nil => nil
  | node _ l _ _ => l

/-- The subtree under `node->right`. -/
def right {α : Type} : Tree α → Tree α
  | nil => nil
  | node _ _ _ r => r

/-- Value-level `rotateLeft`; the tree itself when there is no right child. -/
def rotateLeft {α : Type} : Tree α → Tree α
  | node c l v (node _ rl rv rr) => node c (node Color.RED l v rl) rv rr
  | t => t

/-- Value-level `rotateRight` (defined where the source is: on a node with a left child). -/
def rotateRight {α : Type} : Tree α → Tree α
  | node c (node _ ll lv lr) v r => node c ll lv (node Color.RED lr v r)
  | t => t

/-- Value-level `recolor` (defined where the source is: on a node with both children). -/
def recolor {α : Type} : Tree α → Tree α
  | node _ (node _ ll lv lr) v (node _ rl rv rr) =>
    node Color.RED (node Color.BLACK ll lv lr) v (node Color.BLACK rl rv rr)
  | t => t

/-- Guard of the first fix-up. -/
def guardRotateLeft {α : Type} (t : Tree α) : Bool := t.right.isRed && !t.left.isRed

/-- Guard of the second fix-up. -/
def guardRotateRight {α : Type} (t : Tree α) : Bool := t.left.isRed && t.left.left.isRed

/-- Guard of the third fix-up. -/
def guardRecolor {α : Type} (t : Tree α) : Bool := t.left.isRed && t.right.isRed

/-- The three fix-up statements in source order. -/
def fixups {α : Type} (t : Tree α) : Tree α :=
  let t1 := if t.guardRotateLeft then t.rotateLeft else t
  let t2 := if t1.guardRotateRight then t1.rotateRight else t1
  if t2.guardRecolor then t2.recolor else t2

/-- Value-level `insertHelper`. -/
def insertHelper {α : Type} [LinearOrder α] : Tree α → α → Tree α
  | nil, value => node Color.RED nil value nil
  | node c l v r, value =>
    if value < v then fixups (node c (insertHelper l value) v r)
    else if value > v then fixups (node c l v (insertHelper r value))
    else node c l v r

/-- The black copy of the root that `insert` wraps. -/
def blacken {α : Type} : Tree α → Tree α
  | nil => nil
  | node _ l v r => node Color.BLACK l v r

/-- Value-level `insert`. -/
def insert {α : Type} [LinearOrder α] (t : Tree α) (value : α) : Tree α :=
  blacken (insertHelper t value)

/-- Value-level `inOrder`: left subtree, node, right subtree. -/
def inOrder {α : Type} : Tree α → List α
  | nil => []
  | node _ l v r => inOrder l ++ v :: inOrder r

/-- Value-level fold of `main`. -/
def insertAll {α : Type} [LinearOrder α] (t : Tree α) (tokens : List α) : Tree α :=
  tokens.foldl insert t

/-- Number of nodes. -/
def size {α : Type} : Tree α → Nat
  | nil => 0
  | node _ l _ r => size l + size r + 1

/-- Number of nodes on the longest path from the root to an empty subtree. -/
def height {α : Type} : Tree α → Nat
  | nil => 0
  | node _ l _ r => max (height l) (height r) + 1

/-- For every path from the root to an empty subtree, the number of black nodes on it. -/
def pathBlackCounts {α : Type} : Tree α → List Nat
  | nil => [0]
  | node c l _ r =>
    (pathBlackCounts l ++ pathBlackCounts r).map
      (fun k => if c = Color.BLACK then k + 1 else k)

/-- No red node has a red child, anywhere in the tree. -/
def NoRedRed {α : Type} : Tree α → Prop
  | nil => True
  | node c l _ r =>
    (c = Color.RED → l.isRed = false ∧ r.isRed = false) ∧ NoRedRed l ∧ NoRedRed r

/-- No node has a red right child, anywhere in the tree. -/
def NoRedRight {α : Type} : Tree α → Prop
  | nil => True
  | node _ l _ r => r.isRed = false ∧ NoRedRight l ∧ NoRedRight r

/-- Binary-search-tree order: at every node the values on the left are strictly less and the
values on the right strictly greater. -/
def IsBST {α : Type} [LinearOrder α] : Tree α → Prop
  | nil => True
  | node _ l v r =>
    (∀ x ∈ inOrder l, x < v) ∧ (∀ x ∈ inOrder r, v < x) ∧ IsBST l ∧ IsBST r

/-- Left-leaning colouring: no node has a red right child and no red node a red left child. -/
def LeftLeaning {α : Type} : Tree α → Prop
  | nil => True
  | node c l _ r =>
    r.isRed = false ∧ (c = Color.RED → l.isRed = false) ∧ LeftLeaning l ∧ LeftLeaning r

/-- Left-leaning below the root; at the root only the right child is known not to be red. -/
def AlmostLeftLeaning {α : Type} : Tree α → Prop
  | nil => True
  | node _ l _ r => r.isRed = false ∧ LeftLeaning l ∧ LeftLeaning r

/-- Number of black nodes on the leftmost path. -/
def blackHeight {α : Type} : Tree α → Nat
  | nil => 0
  | node c l _ _ => blackHeight l + (if c = Color.BLACK then 1 else 0)

/-- At every node both subtrees have the same black height. -/
def Balanced {α : Type} : Tree α → Prop
  | nil => True
  | node _ l _ r => blackHeight l = blackHeight r ∧ Balanced l ∧ Balanced r

end Tree

/-! ## Relating the two levels -/

/-- Read the tree under a pointer off the store: shape, colours and values of all nodes
reachable from it.  The first argument bounds the depth. -/
def readTree {α : Type} : Nat → Store α → NodePtr → Option (Tree α)
  | 0, _, _ => none
  | _ + 1, _, none => some Tree.nil
  | fuel + 1, s, some a =>
    match s[a]? with
    | none => none
    | some n =>
      match readTree fuel s n.left, readTree fuel s n.right with
      | some l, some r => some (Tree.node n.color l n.value r)
      | _, _ => none

/-- The tree a `RedBlackTree` object denotes in a store. -/
def treeAt {α : Type} (s : Store α) (t : RedBlackTree) : Option (Tree α) :=
  readTree (s.length + 1) s t.root

/-- The tree returned by the last call of a program of `insert` calls, read off the store as
it is right after that call. -/
def lastReturned {α : Type} [LinearOrder α] (calls : List (Nat × α)) : Option (Tree α) :=
  match runProgram calls with
  | none => none
  | some st =>
    match st.2.getLast? with
    | none => none
    | some t => treeAt st.1 t


/-- A tree together with the address of each of its nodes. -/
inductive Located (α : Type) where
  | nil : Located α
  | node (a : Nat) (c : Color) (l : Located α) (v : α) (r : Located α) : Located α

namespace Located

/-- The pointer to the root. -/
def root {α : Type} : Located α → NodePtr
  | nil => none
  | node a _ _ _ _ => some a

/-- The tree, addresses forgotten. -/
def erase {α : Type} : Located α → Tree α
  | nil => Tree.nil
  | node _ c l v r => Tree.node c (erase l) v (erase r)

/-- The addresses of all nodes. -/
def addrs {α : Type} : Located α → List Nat
  | nil => []
  | node a _ l _ r => a :: (addrs l ++ addrs r)

/-- The store holds the tree: each node's cell has its value, its colour and the pointers to
the roots of its subtrees. -/
def Holds {α : Type} (s : Store α) : Located α → Prop
  | nil => True
  | node a c l v r =>
    s[a]? = some (Node.mk v c l.root r.root) ∧ Holds s l ∧ Holds s r

end Located

/-- The pointer `p` denotes the tree `t` in store `s`: the store holds a located copy of `t`
rooted at `p` whose nodes sit at pairwise distinct addresses. -/
def Denotes {α : Type} (s : Store α) (p : NodePtr) (t : Tree α) : Prop :=
  ∃ u : Located α, u.root = p ∧ u.erase = t ∧ u.Holds s ∧ u.addrs.Nodup

/-- Growth of the store by allocation only: `u1` is held by `s1`, its nodes sit at distinct
addresses that are nodes of `u` or fresh, and `s1` is `s` with cells appended. -/
def Extends {α : Type} (s : Store α) (u : Located α) (s1 : Store α) (u1 : Located α) : Prop :=
  u1.Holds s1 ∧ u1.addrs.Nodup ∧ (∀ a ∈ u1.addrs, a ∈ u.addrs ∨ s.length ≤ a) ∧
    ∃ e, s1 = s ++ e

/-! ### A red-black tree that no chain of inserts builds -/

/-- The tree black 10 whose only child is the red node 20, as right child. -/
def rightRedTree : Tree Nat :=
  Tree.node Color.BLACK Tree.nil 10 (Tree.node Color.RED Tree.nil 20 Tree.nil)

/-- A store holding `rightRedTree`: the red node 20 at address 0, the black node 10 at
address 1. -/
def rightRedStore : Store Nat :=
  [Node.mk 20 Color.RED none none, Node.mk 10 Color.BLACK none (some 0)]

/-- The `RedBlackTree` object whose root is the black node 10 of `rightRedStore`. -/
def rightRedRoot : RedBlackTree := RedBlackTree.mk (some 1)

/-- A store holding a black node 2 at address 2 with the red children 1 (address 0) and 3
(address 1). -/
def bothRedStore : Store Nat :=
  [Node.mk 1 Color.RED none none, Node.mk 3 Color.RED none none,
    Node.mk 2 Color.BLACK (some 0) (some 1)]

/-! ## Value level: order of the elements -/

namespace Tree

section
variable {α : Type}

theorem inOrder_rotateLeft (t : Tree α) : t.rotateLeft.inOrder = t.inOrder := by
  rcases t with _ | ⟨c, l, v, _ | ⟨rc, rl, rv, rr⟩⟩ <;> simp [rotateLeft, inOrder]

theorem inOrder_rotateRight (t : Tree α) : t.rotateRight.inOrder = t.inOrder := by
  rcases t with _ | ⟨c, _ | ⟨lc, ll, lv, lr⟩, v, r⟩ <;> simp [rotateRight, inOrder]

theorem inOrder_recolor (t : Tree α) : t.recolor.inOrder = t.inOrder := by
  rcases t with _ | ⟨c, _ | ⟨lc, ll, lv, lr⟩, v, _ | ⟨rc, rl, rv, rr⟩⟩ <;> simp [recolor, inOrder]

theorem inOrder_fixups (t : Tree α) : t.fixups.inOrder = t.inOrder := by
  unfold fixups
  simp only []
  split_ifs <;> simp [inOrder_rotateLeft, inOrder_rotateRight, inOrder_recolor]

theorem inOrder_blacken (t : Tree α) : t.blacken.inOrder = t.inOrder := by
  cases t <;> rfl

end

section
variable {α : Type} [LinearOrder α]

theorem mem_inOrder_insertHelper (t : Tree α) (x y : α) :
    y ∈ (t.insertHelper x).inOrder ↔ y = x ∨ y ∈ t.inOrder := by
  induction t with
  | nil => simp [insertHelper, inOrder]
  | node c l v r ihl ihr =>
    unfold insertHelper
    split_ifs with h1 h2
    · simp only [inOrder_fixups, inOrder, List.mem_append, List.mem_cons, ihl]; tauto
    · simp only [inOrder_fixups, inOrder, List.mem_append, List.mem_cons, ihr]; tauto
    · have hx : x = v := le_antisymm (not_lt.mp h2) (not_lt.mp h1)
      subst hx
      simp only [inOrder, List.mem_append, List.mem_cons]; tauto

theorem sorted_append_cons {l r : List α} {v : α} :
    (l ++ v :: r).Sorted (· < ·) ↔
      l.Sorted (· < ·) ∧ r.Sorted (· < ·) ∧ (∀ a ∈ l, a < v) ∧ (∀ b ∈ r, v < b) := by
  simp only [List.Sorted, List.pairwise_append, List.pairwise_cons, List.mem_cons]
  constructor
  · rintro ⟨h1, ⟨h2, h3⟩, h4⟩
    exact ⟨h1, h3, fun a ha => h4 a ha v (Or.inl rfl), h2⟩
  · rintro ⟨h1, h2, h3, h4⟩
    refine ⟨h1, ⟨h4, h2⟩, ?_⟩
    rintro a ha b (rfl | hb)
    · exact h3 a ha
    · exact lt_trans (h3 a ha) (h4 b hb)

theorem sorted_insertHelper (t : Tree α) (x : α) (h : t.inOrder.Sorted (· < ·)) :
    (t.insertHelper x).inOrder.Sorted (· < ·) := by
  induction t with
  | nil => simp [insertHelper, inOrder]
  | node c l v r ihl ihr =>
    simp only [inOrder, sorted_append_cons] at h
    obtain ⟨hl, hr, hlv, hrv⟩ := h
    unfold insertHelper
    split_ifs with h1 h2
    · simp only [inOrder_fixups, inOrder, sorted_append_cons]
      refine ⟨ihl hl, hr, ?_, hrv⟩
      intro a ha
      rcases (mem_inOrder_insertHelper l x a).1 ha with rfl | ha
      · exact h1
      · exact hlv a ha
    · simp only [inOrder_fixups, inOrder, sorted_append_cons]
      refine ⟨hl, ihr hr, hlv, ?_⟩
      intro a ha
      rcases (mem_inOrder_insertHelper r x a).1 ha with rfl | ha
      · exact h2
      · exact hrv a ha
    · simp only [inOrder, sorted_append_cons]
      exact ⟨hl, hr, hlv, hrv⟩

end

/-! ## Value level: colours and black height -/

section
variable {α : Type}

theorem LeftLeaning.almost {t : Tree α} (h : t.LeftLeaning) : t.AlmostLeftLeaning := by
  cases t with
  | nil => trivial
  | node c l v r => exact ⟨h.1, h.2.2.1, h.2.2.2⟩

/-- The fix-ups after an insertion into the left subtree. -/
theorem fixups_left (c : Color) (l r : Tree α) (v : α)
    (hl : l.AlmostLeftLeaning) (hlc : c = Color.RED → l.LeftLeaning)
    (hr : r.LeftLeaning) (hrr : r.isRed = false)
    (bl : l.Balanced) (br : r.Balanced) (hb : l.blackHeight = r.blackHeight) :
    (fixups (node c l v r)).AlmostLeftLeaning ∧
    (c = Color.BLACK → (fixups (node c l v r)).LeftLeaning) ∧
    (fixups (node c l v r)).Balanced ∧
    (fixups (node c l v r)).blackHeight = (node c l v r).blackHeight := by
  rcases l with _ | ⟨lc, _ | ⟨llc, lll, llv, llr⟩, lv, lr⟩ <;>
  rcases r with _ | ⟨rc, rl, rv, rr⟩ <;>
  cases c <;> (try cases lc) <;> (try cases llc) <;> (try cases rc) <;>
  simp_all [fixups, guardRotateLeft, guardRotateRight, guardRecolor, rotateLeft, rotateRight,
    recolor, isRed, left, right, LeftLeaning, AlmostLeftLeaning, Balanced, blackHeight] <;>
  omega

/-- The fix-ups after an insertion into the right subtree. -/
theorem fixups_right (c : Color) (l r : Tree α) (v : α)
    (hl : l.LeftLeaning) (hlc : c = Color.RED → l.isRed = false)
    (hr : r.LeftLeaning)
    (bl : l.Balanced) (br : r.Balanced) (hb : l.blackHeight = r.blackHeight) :
    (fixups (node c l v r)).AlmostLeftLeaning ∧
    (c = Color.BLACK → (fixups (node c l v r)).LeftLeaning) ∧
    (fixups (node c l v r)).Balanced ∧
    (fixups (node c l v r)).blackHeight = (node c l v r).blackHeight := by
  rcases l with _ | ⟨lc, ll, lv, lr⟩ <;>
  rcases r with _ | ⟨rc, rl, rv, rr⟩ <;>
  cases c <;> (try cases lc) <;> (try cases rc) <;>
  simp_all [fixups, guardRotateLeft, guardRotateRight, guardRecolor, rotateLeft, rotateRight,
    recolor, isRed, left, right, LeftLeaning, AlmostLeftLeaning, Balanced, blackHeight]

theorem blacken_leftLeaning {t : Tree α} (h : t.AlmostLeftLeaning) : t.blacken.LeftLeaning := by
  cases t with
  | nil => trivial
  | node c l v r => exact ⟨h.1, (fun hc => nomatch hc), h.2.1, h.2.2⟩

theorem blacken_balanced {t : Tree α} (h : t.Balanced) : t.blacken.Balanced := by
  cases t with
  | nil => trivial
  | node c l v r => exact h

theorem blacken_isRed (t : Tree α) : t.blacken.isRed = false := by
  cases t <;> rfl

end

section
variable {α : Type} [LinearOrder α]

/-- On a left-leaning balanced tree `insertHelper` keeps the black height and the balance; its
result is left-leaning below the root, and left-leaning throughout when the input root is not
red. -/
theorem insertHelper_colour (t : Tree α) (x : α) (h : t.LeftLeaning) (b : t.Balanced) :
    (t.insertHelper x).AlmostLeftLeaning ∧
    (t.isRed = false → (t.insertHelper x).LeftLeaning) ∧
    (t.insertHelper x).Balanced ∧
    (t.insertHelper x).blackHeight = t.blackHeight := by
  induction t with
  | nil => simp [insertHelper, AlmostLeftLeaning, LeftLeaning, Balanced, blackHeight, isRed]
  | node c l v r ihl ihr =>
    obtain ⟨hrr, hcl, hl, hr⟩ := h
    obtain ⟨hb, bl, br⟩ := b
    obtain ⟨al, ll, bl1, hl1⟩ := ihl hl bl
    obtain ⟨ar, lr, br1, hr1⟩ := ihr hr br
    have hred : (node c l v r).isRed = false → c = Color.BLACK := by
      cases c <;> simp [isRed]
    unfold insertHelper
    split_ifs with h1 h2
    · have key := fixups_left c (l.insertHelper x) r v al (fun hc => ll (hcl hc)) hr hrr bl1 br
        (hl1.trans hb)
      refine ⟨key.1, fun hc => key.2.1 (hred hc), key.2.2.1, ?_⟩
      rw [key.2.2.2]; simp [blackHeight, hl1]
    · have key := fixups_right c l (r.insertHelper x) v hl hcl (lr hrr) bl br1
        (hb.trans hr1.symm)
      refine ⟨key.1, fun hc => key.2.1 (hred hc), key.2.2.1, ?_⟩
      rw [key.2.2.2]; simp [blackHeight]
    · exact ⟨⟨hrr, hl, hr⟩, fun hc => ⟨hrr, hcl, hl, hr⟩, ⟨hb, bl, br⟩, rfl⟩

/-- The invariant of the trees `insert` returns. -/
theorem insert_invariant (t : Tree α) (x : α) (h : t.LeftLeaning) (b : t.Balanced) :
    (t.insert x).LeftLeaning ∧ (t.insert x).Balanced ∧ (t.insert x).isRed = false := by
  obtain ⟨a, -, b1, -⟩ := insertHelper_colour t x h b
  exact ⟨blacken_leftLeaning a, blacken_balanced b1, blacken_isRed _⟩

theorem insertAll_invariant (xs : List α) (t : Tree α) (h : t.LeftLeaning) (b : t.Balanced)
    (hr : t.isRed = false) :
    (t.insertAll xs).LeftLeaning ∧ (t.insertAll xs).Balanced ∧ (t.insertAll xs).isRed = false := by
  induction xs generalizing t with
  | nil => exact ⟨h, b, hr⟩
  | cons x xs ih =>
    obtain ⟨h1, b1, r1⟩ := insert_invariant t x h b
    exact ih (t.insert x) h1 b1 r1

end

/-! ## Value level: paths, height, repeated insertion -/

section
variable {α : Type}

theorem LeftLeaning.noRedRed {t : Tree α} (h : t.LeftLeaning) : t.NoRedRed := by
  induction t with
  | nil => trivial
  | node c l v r ihl ihr =>
    obtain ⟨hr, hc, hl, hr2⟩ := h
    exact ⟨fun e => ⟨hc e, hr⟩, ihl hl, ihr hr2⟩

theorem pathBlackCounts_of_balanced {t : Tree α} (h : t.Balanced) :
    ∀ k ∈ t.pathBlackCounts, k = t.blackHeight := by
  induction t with
  | nil => simp [pathBlackCounts, blackHeight]
  | node c l v r ihl ihr =>
    obtain ⟨hb, bl, br⟩ := h
    intro k hk
    simp only [pathBlackCounts, List.mem_map, List.mem_append] at hk
    obtain ⟨j, hj, rfl⟩ := hk
    have : j = l.blackHeight := by
      rcases hj with hj | hj
      · exact ihl bl j hj
      · rw [hb]; exact ihr br j hj
    subst this
    cases c <;> simp [blackHeight]

theorem size_eq_length_inOrder (t : Tree α) : t.size = t.inOrder.length := by
  induction t with
  | nil => rfl
  | node c l v r ihl ihr => simp [size, inOrder, ihl, ihr]; omega

theorem height_le (t : Tree α) (h : t.LeftLeaning) (b : t.Balanced) :
    t.height ≤ 2 * t.blackHeight + (if t.isRed then 1 else 0) := by
  induction t with
  | nil => simp [height]
  | node c l v r ihl ihr =>
    obtain ⟨hrr, hc, hl, hr⟩ := h
    obtain ⟨hb, bl, br⟩ := b
    have h1 := ihl hl bl
    have h2 := ihr hr br
    rw [hrr] at h2
    cases c
    · rw [hc rfl] at h1
      simp only [height, blackHeight, isRed]
      simp at h1 h2 ⊢
      omega
    · simp only [height, blackHeight, isRed]
      simp at h2 ⊢
      split_ifs at h1 <;> omega

theorem pow_blackHeight_le (t : Tree α) (b : t.Balanced) :
    2 ^ t.blackHeight ≤ t.size + 1 := by
  induction t with
  | nil => simp [blackHeight, size]
  | node c l v r ihl ihr =>
    obtain ⟨hb, bl, br⟩ := b
    have h1 := ihl bl
    have h2 := ihr br
    rw [← hb] at h2
    cases c
    · simp only [blackHeight, size]; simp; omega
    · simp only [blackHeight, size]; simp [pow_succ]; omega

theorem pow_height_le (t : Tree α) (h : t.LeftLeaning) (b : t.Balanced)
    (hr : t.isRed = false) : 2 ^ t.height ≤ (t.size + 1) ^ 2 := by
  have h1 := height_le t h b
  rw [hr] at h1
  simp at h1
  calc 2 ^ t.height ≤ 2 ^ (2 * t.blackHeight) := Nat.pow_le_pow_right (by norm_num) h1
    _ = (2 ^ t.blackHeight) ^ 2 := by rw [mul_comm, pow_mul]
    _ ≤ (t.size + 1) ^ 2 := Nat.pow_le_pow_left (pow_blackHeight_le t b) 2

theorem fixups_of_leftLeaning {t : Tree α} (h : t.LeftLeaning) :
    t.guardRotateLeft = false ∧ t.guardRotateRight = false ∧ t.guardRecolor = false := by
  rcases t with _ | ⟨c, _ | ⟨lc, ll, lv, lr⟩, v, r⟩
  · simp [guardRotateLeft, guardRotateRight, guardRecolor, left, right, isRed]
  · simp_all [guardRotateLeft, guardRotateRight, guardRecolor, left, right, isRed, LeftLeaning]
  · cases lc <;>
    simp_all [guardRotateLeft, guardRotateRight, guardRecolor, left, right, isRed, LeftLeaning]

theorem blacken_of_not_isRed {t : Tree α} (h : t.isRed = false) : t.blacken = t := by
  rcases t with _ | ⟨c, l, v, r⟩
  · rfl
  · cases c
    · simp [isRed] at h
    · rfl

end

section
variable {α : Type} [LinearOrder α]

/-- Inserting a value that is present returns the tree itself. -/
theorem insertHelper_of_mem (t : Tree α) (x : α) (h : t.LeftLeaning)
    (hs : t.inOrder.Sorted (· < ·)) (hx : x ∈ t.inOrder) : t.insertHelper x = t := by
  induction t with
  | nil => simp [inOrder] at hx
  | node c l v r ihl ihr =>
    obtain ⟨g1, g2, g3⟩ := fixups_of_leftLeaning h
    obtain ⟨hrr, hc, hl, hr⟩ := h
    simp only [inOrder, sorted_append_cons] at hs
    obtain ⟨sl, sr, hlv, hrv⟩ := hs
    simp only [inOrder, List.mem_append, List.mem_cons] at hx
    unfold insertHelper
    split_ifs with h1 h2
    · have hxl : x ∈ l.inOrder := by
        rcases hx with hx | rfl | hx
        · exact hx
        · exact absurd h1 (lt_irrefl _)
        · exact absurd (lt_trans h1 (hrv x hx)) (lt_irrefl _)
      rw [ihl hl sl hxl]
      simp [fixups, g1, g2, g3]
    · have hxr : x ∈ r.inOrder := by
        rcases hx with hx | rfl | hx
        · exact absurd (lt_trans h2 (hlv x hx)) (lt_irrefl _)
        · exact absurd h2 (lt_irrefl _)
        · exact hx
      rw [ihr hr sr hxr]
      simp [fixups, g1, g2, g3]
    · rfl

theorem sorted_insertAll (xs : List α) (t : Tree α) (hs : t.inOrder.Sorted (· < ·)) :
    (t.insertAll xs).inOrder.Sorted (· < ·) := by
  induction xs generalizing t with
  | nil => exact hs
  | cons x xs ih =>
    refine ih (t.insert x) ?_
    rw [insert, inOrder_blacken]; exact sorted_insertHelper t x hs

theorem mem_inOrder_insertAll (xs : List α) (t : Tree α) (y : α) :
    y ∈ (t.insertAll xs).inOrder ↔ y ∈ xs ∨ y ∈ t.inOrder := by
  induction xs generalizing t with
  | nil => simp [insertAll]
  | cons x xs ih =>
    have := ih (t.insert x)
    simp only [insertAll, List.foldl_cons] at this ⊢
    rw [this, insert, inOrder_blacken, mem_inOrder_insertHelper, List.mem_cons]
    tauto

theorem inOrder_insertAll_nil (xs : List α) :
    (insertAll nil xs).inOrder = xs.toFinset.sort (· ≤ ·) := by
  have hs := sorted_insertAll xs (nil : Tree α) (by simp [inOrder])
  refine List.eq_of_perm_of_sorted ?_ hs.le_of_lt (Finset.sort_sorted _ _)
  refine (List.perm_ext_iff_of_nodup hs.nodup (Finset.sort_nodup _ _)).2 ?_
  intro y
  rw [mem_inOrder_insertAll, Finset.mem_sort, List.mem_toFinset]
  simp [inOrder]

end

end Tree

/-! ## Store level: the code computes the value-level functions -/

namespace Located

section
variable {α : Type}

theorem Holds.lt {s : Store α} {u : Located α} (h : u.Holds s) :
    ∀ a ∈ u.addrs, a < s.length := by
  induction u with
  | nil => simp [addrs]
  | node a c l v r ihl ihr =>
    obtain ⟨h0, hl, hr⟩ := h
    intro b hb
    simp only [addrs, List.mem_cons, List.mem_append] at hb
    rcases hb with rfl | hb | hb
    · by_contra hc
      rw [List.getElem?_eq_none (not_lt.mp hc)] at h0
      cases h0
    · exact ihl hl b hb
    · exact ihr hr b hb

theorem Holds.frame {s s1 : Store α} {u : Located α} (h : u.Holds s)
    (hf : ∀ a ∈ u.addrs, s1[a]? = s[a]?) : u.Holds s1 := by
  induction u with
  | nil => trivial
  | node a c l v r ihl ihr =>
    obtain ⟨h0, hl, hr⟩ := h
    refine ⟨?_, ihl hl ?_, ihr hr ?_⟩
    · rw [hf a (by simp [addrs])]; exact h0
    · intro b hb; exact hf b (by simp [addrs, hb])
    · intro b hb; exact hf b (by simp [addrs, hb])

theorem Holds.append {s : Store α} {u : Located α} (h : u.Holds s) (e : Store α) :
    u.Holds (s ++ e) :=
  h.frame (fun a ha => List.getElem?_append_left (h.lt a ha))

theorem Holds.isRed {s : Store α} {u : Located α} (h : u.Holds s) :
    FPROG.isRed s u.root = some u.erase.isRed := by
  cases u with
  | nil => rfl
  | node a c l v r =>
    simp only [root, FPROG.isRed, h.1, Option.map_some', erase]
    cases c <;> simp [Tree.isRed]

theorem Holds.getLeft {s : Store α} {a : Nat} {c : Color} {l r : Located α} {v : α}
    (h : (node a c l v r).Holds s) : FPROG.getLeft s (some a) = some l.root := by
  simp [FPROG.getLeft, deref, h.1]

theorem Holds.getRight {s : Store α} {a : Nat} {c : Color} {l r : Located α} {v : α}
    (h : (node a c l v r).Holds s) : FPROG.getRight s (some a) = some r.root := by
  simp [FPROG.getRight, deref, h.1]

theorem Holds.guardRotateLeft {s : Store α} {a : Nat} {c : Color} {l r : Located α} {v : α}
    (h : (node a c l v r).Holds s) :
    FPROG.guardRotateLeft s (some a) = some (node a c l v r).erase.guardRotateLeft := by
  simp only [FPROG.guardRotateLeft, h.getLeft, h.getRight, h.2.1.isRed, h.2.2.isRed,
    Option.bind_eq_bind, Option.some_bind, erase, Tree.guardRotateLeft, Tree.left, Tree.right]
  cases r.erase.isRed <;> simp

theorem Holds.guardRecolor {s : Store α} {a : Nat} {c : Color} {l r : Located α} {v : α}
    (h : (node a c l v r).Holds s) :
    FPROG.guardRecolor s (some a) = some (node a c l v r).erase.guardRecolor := by
  simp only [FPROG.guardRecolor, h.getLeft, h.getRight, h.2.1.isRed, h.2.2.isRed,
    Option.bind_eq_bind, Option.some_bind, erase, Tree.guardRecolor, Tree.left, Tree.right]
  cases l.erase.isRed <;> simp

theorem Holds.guardRotateRight {s : Store α} {a : Nat} {c : Color} {l r : Located α} {v : α}
    (h : (node a c l v r).Holds s) :
    FPROG.guardRotateRight s (some a) = some (node a c l v r).erase.guardRotateRight := by
  simp only [FPROG.guardRotateRight, h.getLeft, h.2.1.isRed,
    Option.bind_eq_bind, Option.some_bind, erase, Tree.guardRotateRight, Tree.left]
  cases l with
  | nil => simp [erase, Tree.isRed]
  | node la lc ll lv lr =>
    have hl := h.2.1
    have e : (node la lc ll lv lr).root = some la := rfl
    simp only [e, hl.getLeft, erase, Tree.left, Option.some_bind]
    cases (Tree.node lc ll.erase lv lr.erase).isRed <;> simp [hl.2.1.isRed]

theorem nodup_fresh {n : Nat} {xs : List Nat} (hx : ∀ b ∈ xs, b < n) (hn : xs.Nodup) :
    (n :: xs).Nodup :=
  List.nodup_cons.2 ⟨fun h => lt_irrefl n (hx n h), hn⟩

theorem getElem?_fresh0 (s e : Store α) (n : Node α) : (s ++ n :: e)[s.length]? = some n := by
  rw [List.getElem?_append_right (le_refl _)]; simp

theorem getElem?_fresh1 (s e : Store α) (n m : Node α) :
    (s ++ n :: m :: e)[s.length + 1]? = some m := by
  rw [List.getElem?_append_right (Nat.le_add_right _ _)]; simp

theorem getElem?_fresh2 (s e : Store α) (n m k : Node α) :
    (s ++ n :: m :: k :: e)[s.length + 2]? = some k := by
  rw [List.getElem?_append_right (Nat.le_add_right _ _)]; simp

theorem rotateLeft_sim {s : Store α} {a : Nat} {c : Color} {l r : Located α} {v : α}
    (h : (node a c l v r).Holds s) (hn : (node a c l v r).addrs.Nodup) :
    ∃ s1 u1, FPROG.rotateLeft s (some a) = some (s1, u1.root) ∧
      u1.erase = (node a c l v r).erase.rotateLeft ∧
      Extends s (node a c l v r) s1 u1 ∧ u1.root.isSome = true := by
  cases r with
  | nil =>
    refine ⟨s, node a c l v nil, ?_, rfl, ⟨h, hn, fun b hb => Or.inl hb, [], by simp⟩, rfl⟩
    simp [FPROG.rotateLeft, h.1, root]
  | node ra rc rl rv rr =>
    have hlt := h.lt
    obtain ⟨h0, hl, hr0, hrl, hrr⟩ := h
    have h0 : s[a]? = some (Node.mk v c l.root (some ra)) := h0
    refine ⟨s ++ [Node.mk v Color.RED l.root rl.root, Node.mk rv c (some s.length) rr.root],
      node (s.length + 1) c (node s.length Color.RED l v rl) rv rr, ?_, rfl, ⟨?_, ?_, ?_, ?_⟩, rfl⟩
    · simp only [FPROG.rotateLeft, h0, hr0, alloc, List.append_assoc, List.length_append,
        List.length_singleton, List.singleton_append]
      rfl
    · exact ⟨getElem?_fresh1 _ _ _ _, ⟨getElem?_fresh0 _ _ _, hl.append _, hrl.append _⟩,
        hrr.append _⟩
    · simp only [addrs, List.cons_append, List.append_assoc] at hn ⊢
      have hs : (l.addrs ++ (rl.addrs ++ rr.addrs)).Nodup := by
        refine (List.nodup_cons.1 hn).2.sublist ?_
        exact List.Sublist.append (List.Sublist.refl _) (List.sublist_cons_self _ _)
      have hb : ∀ b ∈ l.addrs ++ (rl.addrs ++ rr.addrs), b < s.length := by
        intro b hb
        apply hlt
        simp only [addrs, List.mem_cons, List.mem_append] at hb ⊢
        tauto
      refine nodup_fresh ?_ (nodup_fresh hb hs)
      intro b hb1
      rcases List.mem_cons.1 hb1 with rfl | hb1
      · omega
      · have := hb b hb1; omega
    · intro b hb
      simp only [addrs, List.mem_cons, List.mem_append] at hb ⊢
      rcases hb with rfl | (rfl | hb | hb) | hb
      · right; omega
      · right; omega
      · tauto
      · tauto
      · tauto
    · exact ⟨_, rfl⟩

theorem rotateRight_sim {s : Store α} {a la : Nat} {c lc : Color} {ll lr r : Located α}
    {v lv : α} (h : (node a c (node la lc ll lv lr) v r).Holds s)
    (hn : (node a c (node la lc ll lv lr) v r).addrs.Nodup) :
    ∃ s1 u1, FPROG.rotateRight s (some a) = some (s1, u1.root) ∧
      u1.erase = (node a c (node la lc ll lv lr) v r).erase.rotateRight ∧
      Extends s (node a c (node la lc ll lv lr) v r) s1 u1 ∧ u1.root.isSome = true := by
  have hlt := h.lt
  obtain ⟨h0, ⟨hl0, hll, hlr⟩, hr⟩ := h
  have h0 : s[a]? = some (Node.mk v c (some la) r.root) := h0
  refine ⟨s ++ [Node.mk v Color.RED lr.root r.root, Node.mk lv c ll.root (some s.length)],
    node (s.length + 1) c ll lv (node s.length Color.RED lr v r), ?_, rfl, ⟨?_, ?_, ?_, ?_⟩, rfl⟩
  · simp only [FPROG.rotateRight, deref, h0, hl0, alloc, List.append_assoc, List.length_append,
      List.length_singleton, List.singleton_append]
    rfl
  · exact ⟨getElem?_fresh1 _ _ _ _, hll.append _,
      ⟨getElem?_fresh0 _ _ _, hlr.append _, hr.append _⟩⟩
  · simp only [addrs, List.cons_append, List.append_assoc] at hn ⊢
    have hs : (ll.addrs ++ (lr.addrs ++ r.addrs)).Nodup := by
      refine (List.nodup_cons.1 hn).2.sublist ?_
      exact List.sublist_cons_self _ _
    have hb : ∀ b ∈ ll.addrs ++ (lr.addrs ++ r.addrs), b < s.length := by
      intro b hb
      apply hlt
      simp only [addrs, List.mem_cons, List.mem_append] at hb ⊢
      tauto
    have hp : (ll.addrs ++ s.length :: (lr.addrs ++ r.addrs)).Perm
        (s.length :: (ll.addrs ++ (lr.addrs ++ r.addrs))) := List.perm_middle
    refine nodup_fresh (n := s.length + 1) ?_ (hp.nodup_iff.2 (nodup_fresh hb hs))
    intro b hb1
    rcases List.mem_cons.1 (hp.subset hb1) with rfl | hb1
    · omega
    · have := hb b hb1; omega
  · intro b hb
    simp only [addrs, List.mem_cons, List.mem_append] at hb ⊢
    rcases hb with rfl | hb | rfl | hb | hb
    · right; omega
    · tauto
    · right; omega
    · tauto
    · tauto
  · exact ⟨_, rfl⟩

theorem recolor_sim {s : Store α} {a la ra : Nat} {c lc rc : Color}
    {ll lr rl rr : Located α} {v lv rv : α}
    (h : (node a c (node la lc ll lv lr) v (node ra rc rl rv rr)).Holds s)
    (hn : (node a c (node la lc ll lv lr) v (node ra rc rl rv rr)).addrs.Nodup) :
    ∃ s1 u1, FPROG.recolor s (some a) = some (s1, u1.root) ∧
      u1.erase = (node a c (node la lc ll lv lr) v (node ra rc rl rv rr)).erase.recolor ∧
      Extends s (node a c (node la lc ll lv lr) v (node ra rc rl rv rr)) s1 u1 ∧
      u1.root.isSome = true := by
  have hlt := h.lt
  obtain ⟨h0, ⟨hl0, hll, hlr⟩, hr0, hrl, hrr⟩ := h
  have h0 : s[a]? = some (Node.mk v c (some la) (some ra)) := h0
  refine ⟨s ++ [Node.mk lv Color.BLACK ll.root lr.root, Node.mk rv Color.BLACK rl.root rr.root,
      Node.mk v Color.RED (some s.length) (some (s.length + 1))],
    node (s.length + 2) Color.RED (node s.length Color.BLACK ll lv lr) v
      (node (s.length + 1) Color.BLACK rl rv rr), ?_, rfl, ⟨?_, ?_, ?_, ?_⟩, rfl⟩
  · simp only [FPROG.recolor, deref, h0, hl0, hr0, alloc, List.append_assoc, List.length_append,
      List.length_singleton, List.singleton_append]
    rfl
  · exact ⟨getElem?_fresh2 _ _ _ _ _, ⟨getElem?_fresh0 _ _ _, hll.append _, hlr.append _⟩,
      ⟨getElem?_fresh1 _ _ _ _, hrl.append _, hrr.append _⟩⟩
  · simp only [addrs, List.cons_append, List.append_assoc] at hn ⊢
    have hs : (ll.addrs ++ (lr.addrs ++ (rl.addrs ++ rr.addrs))).Nodup := by
      refine (List.nodup_cons.1 (List.nodup_cons.1 hn).2).2.sublist ?_
      exact List.Sublist.append (List.Sublist.refl _)
        (List.Sublist.append (List.Sublist.refl _) (List.sublist_cons_self _ _))
    have hb : ∀ b ∈ ll.addrs ++ (lr.addrs ++ (rl.addrs ++ rr.addrs)), b < s.length := by
      intro b hb
      apply hlt
      simp only [addrs, List.mem_cons, List.mem_append] at hb ⊢
      tauto
    have hp : (s.length :: (ll.addrs ++ (lr.addrs ++ (s.length + 1) :: (rl.addrs ++ rr.addrs)))).Perm
        ((s.length + 1) :: s.length :: (ll.addrs ++ (lr.addrs ++ (rl.addrs ++ rr.addrs)))) := by
      refine (List.Perm.cons _ ?_).trans (List.Perm.swap _ _ _)
      rw [← List.append_assoc, ← List.append_assoc]
      exact List.perm_middle
    have h1 : ((s.length + 1) :: s.length :: (ll.addrs ++ (lr.addrs ++ (rl.addrs ++ rr.addrs)))).Nodup := by
      refine nodup_fresh (n := s.length + 1) ?_ (nodup_fresh hb hs)
      intro b hb1
      rcases List.mem_cons.1 hb1 with rfl | hb1
      · omega
      · have := hb b hb1; omega
    refine nodup_fresh (n := s.length + 2) ?_ (hp.nodup_iff.2 h1)
    intro b hb1
    rcases List.mem_cons.1 (hp.subset hb1) with rfl | hb1
    · omega
    · rcases List.mem_cons.1 hb1 with rfl | hb1
      · omega
      · have := hb b hb1; omega
  · intro b hb
    simp only [addrs, List.mem_cons, List.mem_append] at hb ⊢
    rcases hb with rfl | (rfl | hb | hb) | rfl | hb | hb
    · right; omega
    · right; omega
    · tauto
    · tauto
    · right; omega
    · tauto
    · tauto
  · exact ⟨_, rfl⟩

theorem Extends.refl {s : Store α} {u : Located α} (h : u.Holds s) (hn : u.addrs.Nodup) :
    Extends s u s u :=
  ⟨h, hn, fun _ hb => Or.inl hb, [], by simp⟩

theorem Extends.trans {s s1 s2 : Store α} {u u1 u2 : Located α}
    (h1 : Extends s u s1 u1) (h2 : Extends s1 u1 s2 u2) : Extends s u s2 u2 := by
  obtain ⟨-, -, m1, e1, rfl⟩ := h1
  obtain ⟨k2, n2, m2, e2, rfl⟩ := h2
  refine ⟨k2, n2, ?_, e1 ++ e2, by simp⟩
  intro b hb
  rcases m2 b hb with hb | hb
  · exact m1 b hb
  · right
    simp only [List.length_append] at hb
    omega

theorem stepRotateLeft_sim {s : Store α} {u : Located α} (h : u.Holds s) (hn : u.addrs.Nodup)
    (hu : u.root.isSome = true) :
    ∃ s1 u1, applyIf (FPROG.guardRotateLeft s u.root) FPROG.rotateLeft s u.root = some (s1, u1.root) ∧
      u1.erase = (if u.erase.guardRotateLeft = true then u.erase.rotateLeft else u.erase) ∧
      Extends s u s1 u1 ∧ u1.root.isSome = true := by
  cases u with
  | nil => simp [root] at hu
  | node a c l v r =>
    by_cases g : (node a c l v r).erase.guardRotateLeft = true
    · obtain ⟨s1, u1, e1, e2, e3, e4⟩ := rotateLeft_sim h hn
      refine ⟨s1, u1, ?_, by rw [if_pos g]; exact e2,
        e3, e4⟩
      show applyIf (FPROG.guardRotateLeft s (some a)) FPROG.rotateLeft s (some a) = _
      rw [h.guardRotateLeft, g]; exact e1
    · refine ⟨s, node a c l v r, ?_, by rw [if_neg g],
        Extends.refl h hn, hu⟩
      show applyIf (FPROG.guardRotateLeft s (some a)) FPROG.rotateLeft s (some a) = _
      rw [h.guardRotateLeft, Bool.eq_false_iff.2 g]; rfl

theorem stepRotateRight_sim {s : Store α} {u : Located α} (h : u.Holds s)
    (hn : u.addrs.Nodup) (hu : u.root.isSome = true) :
    ∃ s1 u1, applyIf (FPROG.guardRotateRight s u.root) FPROG.rotateRight s u.root = some (s1, u1.root) ∧
      u1.erase = (if u.erase.guardRotateRight = true then u.erase.rotateRight else u.erase) ∧
      Extends s u s1 u1 ∧ u1.root.isSome = true := by
  cases u with
  | nil => simp [root] at hu
  | node a c l v r =>
    by_cases g : (node a c l v r).erase.guardRotateRight = true
    · cases l with
      | nil => simp [erase, Tree.guardRotateRight, Tree.left, Tree.isRed] at g
      | node la lc ll lv lr =>
        obtain ⟨s1, u1, e1, e2, e3, e4⟩ := rotateRight_sim h hn
        refine ⟨s1, u1, ?_,
          by rw [if_pos g]; exact e2, e3, e4⟩
        show applyIf (FPROG.guardRotateRight s (some a)) FPROG.rotateRight s (some a) = _
        rw [h.guardRotateRight, g]; exact e1
    · refine ⟨s, node a c l v r, ?_, by rw [if_neg g],
        Extends.refl h hn, hu⟩
      show applyIf (FPROG.guardRotateRight s (some a)) FPROG.rotateRight s (some a) = _
      rw [h.guardRotateRight, Bool.eq_false_iff.2 g]; rfl

theorem stepRecolor_sim {s : Store α} {u : Located α} (h : u.Holds s)
    (hn : u.addrs.Nodup) (hu : u.root.isSome = true) :
    ∃ s1 u1, applyIf (FPROG.guardRecolor s u.root) FPROG.recolor s u.root = some (s1, u1.root) ∧
      u1.erase = (if u.erase.guardRecolor = true then u.erase.recolor else u.erase) ∧
      Extends s u s1 u1 ∧ u1.root.isSome = true := by
  cases u with
  | nil => simp [root] at hu
  | node a c l v r =>
    by_cases g : (node a c l v r).erase.guardRecolor = true
    · cases l with
      | nil => simp [erase, Tree.guardRecolor, Tree.left, Tree.isRed] at g
      | node la lc ll lv lr =>
        cases r with
        | nil => simp [erase, Tree.guardRecolor, Tree.right, Tree.isRed] at g
        | node ra rc rl rv rr =>
          obtain ⟨s1, u1, e1, e2, e3, e4⟩ := recolor_sim h hn
          refine ⟨s1, u1, ?_,
            by rw [if_pos g]; exact e2, e3, e4⟩
          show applyIf (FPROG.guardRecolor s (some a)) FPROG.recolor s (some a) = _
          rw [h.guardRecolor, g]; exact e1
    · refine ⟨s, node a c l v r, ?_, by rw [if_neg g],
        Extends.refl h hn, hu⟩
      show applyIf (FPROG.guardRecolor s (some a)) FPROG.recolor s (some a) = _
      rw [h.guardRecolor, Bool.eq_false_iff.2 g]; rfl

theorem fixups_sim {s : Store α} {u : Located α} (h : u.Holds s) (hn : u.addrs.Nodup)
    (hu : u.root.isSome = true) :
    ∃ s1 u1, FPROG.fixups s u.root = some (s1, u1.root) ∧ u1.erase = u.erase.fixups ∧
      Extends s u s1 u1 ∧ u1.root.isSome = true := by
  obtain ⟨s1, u1, e1, t1, x1, r1⟩ := stepRotateLeft_sim h hn hu
  obtain ⟨s2, u2, e2, t2, x2, r2⟩ := stepRotateRight_sim x1.1 x1.2.1 r1
  obtain ⟨s3, u3, e3, t3, x3, r3⟩ := stepRecolor_sim x2.1 x2.2.1 r2
  refine ⟨s3, u3, ?_, ?_, Extends.trans (Extends.trans x1 x2) x3, r3⟩
  · simp only [FPROG.fixups, e1, e2, e3]
  · rw [t3, t2, t1]; rfl

theorem Holds.set {s : Store α} {u : Located α} (h : u.Holds s) {a : Nat}
    (ha : a ∉ u.addrs) (n : Node α) : u.Holds (s.set a n) :=
  h.frame (fun b hb => List.getElem?_set_ne (fun e => ha (by subst e; exact hb)))

theorem copyAndFix_sim {s : Store α} {a : Nat} {c : Color} {l r : Located α} {v : α}
    (h0 : s[a]? = some (Node.mk v c l.root r.root)) (hl : l.Holds s) (hr : r.Holds s)
    (hn : (l.addrs ++ r.addrs).Nodup) :
    ∃ (s1 : Store α) (u1 : Located α), FPROG.copyAndFix s a = some (s1, u1.root) ∧
      u1.erase = (Tree.node c l.erase v r.erase).fixups ∧ u1.Holds s1 ∧ u1.addrs.Nodup ∧
      (∀ b ∈ u1.addrs, b ∈ l.addrs ∨ b ∈ r.addrs ∨ s.length ≤ b) ∧
      (∃ e, s1 = s ++ e) ∧ u1.root.isSome = true := by
  have hk : (node s.length c l v r).Holds (s ++ [Node.mk v c l.root r.root]) :=
    ⟨getElem?_fresh0 _ _ _, hl.append _, hr.append _⟩
  have hd : (node s.length c l v r).addrs.Nodup := by
    refine nodup_fresh ?_ hn
    intro b hb
    rcases List.mem_append.1 hb with hb | hb
    · exact hl.lt b hb
    · exact hr.lt b hb
  obtain ⟨s1, u1, e1, e2, ⟨k1, n1, m1, e, rfl⟩, r1⟩ := fixups_sim hk hd rfl
  refine ⟨_, u1, ?_, e2, k1, n1, ?_, ⟨_, List.append_assoc _ _ _⟩, r1⟩
  · simp only [FPROG.copyAndFix, h0, alloc]
    exact e1
  · intro b hb
    rcases m1 b hb with hb | hb
    · simp only [addrs, List.mem_cons, List.mem_append] at hb
      rcases hb with rfl | hb | hb
      · right; right; exact le_refl _
      · exact Or.inl hb
      · exact Or.inr (Or.inl hb)
    · right; right
      simp only [List.length_append, List.length_singleton] at hb
      omega

/-- Simulation of `insertHelper`: on a store holding the located tree `u` at distinct addresses,
with a depth bound above the height, the code returns a pointer to a located tree that erases
to the value-level result; cells outside `u` keep their content. -/
theorem insertHelper_sim [LinearOrder α] (u : Located α) :
    ∀ (s : Store α) (x : α) (fuel : Nat), u.Holds s → u.addrs.Nodup → u.erase.height < fuel →
    ∃ (s1 : Store α) (u1 : Located α),
      FPROG.insertHelper fuel s u.root x = some (s1, u1.root) ∧
      u1.erase = u.erase.insertHelper x ∧ u1.Holds s1 ∧ u1.addrs.Nodup ∧
      (∀ b ∈ u1.addrs, b ∈ u.addrs ∨ s.length ≤ b) ∧ s.length ≤ s1.length ∧
      (∀ b, b < s.length → b ∉ u.addrs → s1[b]? = s[b]?) ∧ u1.root.isSome = true := by
  induction u with
  | nil =>
    intro s x fuel _ _ hf
    obtain ⟨k, rfl⟩ : ∃ k, fuel = k + 1 := ⟨fuel - 1, by omega⟩
    refine ⟨s ++ [Node.mk x Color.RED none none], node s.length Color.RED nil x nil, rfl, rfl,
      ⟨getElem?_fresh0 _ _ _, trivial, trivial⟩, by simp [addrs], ?_, by simp, ?_, rfl⟩
    · intro b hb
      simp only [addrs, List.append_nil, List.mem_singleton] at hb
      right; omega
    · intro b hb _
      exact List.getElem?_append_left hb
  | node a c l v r ihl ihr =>
    intro s x fuel h hn hf
    simp only [erase, Tree.height] at hf
    obtain ⟨k, rfl⟩ : ∃ k, fuel = k + 1 := ⟨fuel - 1, by omega⟩
    have hlt := h.lt
    obtain ⟨h0, hl, hr⟩ := h
    simp only [addrs, List.nodup_cons, List.mem_append, not_or] at hn
    obtain ⟨⟨hal, har⟩, hlr⟩ := hn
    obtain ⟨nl, nr, hdis⟩ := List.nodup_append.1 hlr
    have ha : a < s.length := hlt a (by simp [addrs])
    by_cases h1 : x < v
    · obtain ⟨s1, l1, e1, t1, k1, n1, m1, len1, f1, -⟩ := ihl s x k hl nl (by omega)
      have hal1 : a ∉ l1.addrs := fun hb => (m1 a hb).elim hal (fun h => by omega)
      have hs1a : s1[a]? = some (Node.mk v c l.root r.root) := by rw [f1 a ha hal]; exact h0
      have hr1 : r.Holds s1 :=
        hr.frame (fun b hb => f1 b (hr.lt b hb) (fun hbl => hdis hbl hb))
      have hs2a : (s1.set a (Node.mk v c l1.root r.root))[a]? =
          some (Node.mk v c l1.root r.root) := List.getElem?_set_self (by omega)
      have hn2 : (l1.addrs ++ r.addrs).Nodup := by
        refine List.nodup_append.2 ⟨n1, nr, ?_⟩
        intro b hb1 hb2
        rcases m1 b hb1 with hb | hb
        · exact hdis hb hb2
        · have := hr.lt b hb2; omega
      obtain ⟨s4, u4, e4, t4, k4, n4, m4, ⟨e, he⟩, r4⟩ :=
        copyAndFix_sim hs2a (k1.set hal1 _) (hr1.set har _) hn2
      refine ⟨s4, u4, ?_, ?_, k4, n4, ?_, ?_, ?_, r4⟩
      · show FPROG.insertHelper (k + 1) s (some a) x = _
        simp only [FPROG.insertHelper, h0, if_pos h1, e1, setLeft, hs1a]
        exact e4
      · rw [t4, t1]
        simp only [erase, Tree.insertHelper, if_pos h1]
      · intro b hb
        simp only [addrs, List.mem_cons, List.mem_append]
        rcases m4 b hb with hb | hb | hb
        · rcases m1 b hb with hb | hb
          · tauto
          · exact Or.inr hb
        · tauto
        · right
          simp only [List.length_set] at hb
          omega
      · rw [he]; simp only [List.length_append, List.length_set]; omega
      · intro b hb hnb
        simp only [addrs, List.mem_cons, List.mem_append, not_or] at hnb
        rw [he, List.getElem?_append_left (by simp only [List.length_set]; omega),
          List.getElem?_set_ne (Ne.symm hnb.1)]
        exact f1 b hb hnb.2.1
    · by_cases h2 : x > v
      · obtain ⟨s1, r1, e1, t1, k1, n1, m1, len1, f1, -⟩ := ihr s x k hr nr (by omega)
        have har1 : a ∉ r1.addrs := fun hb => (m1 a hb).elim har (fun h => by omega)
        have hs1a : s1[a]? = some (Node.mk v c l.root r.root) := by rw [f1 a ha har]; exact h0
        have hl1 : l.Holds s1 :=
          hl.frame (fun b hb => f1 b (hl.lt b hb) (fun hbr => hdis hb hbr))
        have hs2a : (s1.set a (Node.mk v c l.root r1.root))[a]? =
            some (Node.mk v c l.root r1.root) := List.getElem?_set_self (by omega)
        have hn2 : (l.addrs ++ r1.addrs).Nodup := by
          refine List.nodup_append.2 ⟨nl, n1, ?_⟩
          intro b hb1 hb2
          rcases m1 b hb2 with hb | hb
          · exact hdis hb1 hb
          · have := hl.lt b hb1; omega
        obtain ⟨s4, u4, e4, t4, k4, n4, m4, ⟨e, he⟩, r4⟩ :=
          copyAndFix_sim hs2a (hl1.set hal _) (k1.set har1 _) hn2
        refine ⟨s4, u4, ?_, ?_, k4, n4, ?_, ?_, ?_, r4⟩
        · show FPROG.insertHelper (k + 1) s (some a) x = _
          simp only [FPROG.insertHelper, h0, if_neg h1, if_pos h2, e1, setRight, hs1a]
          exact e4
        · rw [t4, t1]
          simp only [erase, Tree.insertHelper, if_neg h1, if_pos h2]
        · intro b hb
          simp only [addrs, List.mem_cons, List.mem_append]
          rcases m4 b hb with hb | hb | hb
          · tauto
          · rcases m1 b hb with hb | hb
            · tauto
            · exact Or.inr hb
          · right
            simp only [List.length_set] at hb
            omega
        · rw [he]; simp only [List.length_append, List.length_set]; omega
        · intro b hb hnb
          simp only [addrs, List.mem_cons, List.mem_append, not_or] at hnb
          rw [he, List.getElem?_append_left (by simp only [List.length_set]; omega),
            List.getElem?_set_ne (Ne.symm hnb.1)]
          exact f1 b hb hnb.2.2
      · refine ⟨s, node a c l v r, ?_, ?_, ⟨h0, hl, hr⟩, ?_, fun b hb => Or.inl hb, le_refl _,
          fun _ _ _ => rfl, rfl⟩
        · show FPROG.insertHelper (k + 1) s (some a) x = _
          simp only [FPROG.insertHelper, h0, if_neg h1, if_neg h2]
          rfl
        · simp only [erase, Tree.insertHelper, if_neg h1, if_neg h2]
        · simp only [addrs, List.nodup_cons, List.mem_append, not_or]
          exact ⟨⟨hal, har⟩, hlr⟩

end

end Located

namespace Located

section
variable {α : Type}

theorem length_addrs (u : Located α) : u.addrs.length = u.erase.size := by
  induction u with
  | nil => rfl
  | node a c l v r ihl ihr => simp [addrs, erase, Tree.size, ihl, ihr]

theorem height_le_length {s : Store α} {u : Located α} (h : u.Holds s) (hn : u.addrs.Nodup) :
    u.erase.height ≤ s.length := by
  have h1 : u.erase.height ≤ u.erase.size := by
    generalize u.erase = t
    induction t with
    | nil => simp [Tree.height]
    | node c l v r ihl ihr => simp only [Tree.height, Tree.size]; omega
  have h2 : u.addrs.length ≤ s.length := by
    have hsub : u.addrs.toFinset ⊆ Finset.range s.length := by
      intro b hb
      exact Finset.mem_range.2 (h.lt b (List.mem_toFinset.1 hb))
    have := Finset.card_le_card hsub
    rwa [List.toFinset_card_of_nodup hn, Finset.card_range] at this
  rw [length_addrs] at h2
  omega

theorem Holds.traverse {s : Store α} {u : Located α} (h : u.Holds s) :
    ∀ fuel, u.erase.height < fuel → FPROG.traverse fuel s u.root = some u.erase.inOrder := by
  induction u with
  | nil =>
    intro fuel hf
    obtain ⟨k, rfl⟩ : ∃ k, fuel = k + 1 := ⟨fuel - 1, by omega⟩
    rfl
  | node a c l v r ihl ihr =>
    intro fuel hf
    simp only [erase, Tree.height] at hf
    obtain ⟨k, rfl⟩ : ∃ k, fuel = k + 1 := ⟨fuel - 1, by omega⟩
    show FPROG.traverse (k + 1) s (some a) = _
    simp only [FPROG.traverse, h.1, ihl h.2.1 k (by omega), ihr h.2.2 k (by omega)]
    rfl

theorem Holds.readTree {s : Store α} {u : Located α} (h : u.Holds s) :
    ∀ fuel, u.erase.height < fuel → FPROG.readTree fuel s u.root = some u.erase := by
  induction u with
  | nil =>
    intro fuel hf
    obtain ⟨k, rfl⟩ : ∃ k, fuel = k + 1 := ⟨fuel - 1, by omega⟩
    rfl
  | node a c l v r ihl ihr =>
    intro fuel hf
    simp only [erase, Tree.height] at hf
    obtain ⟨k, rfl⟩ : ∃ k, fuel = k + 1 := ⟨fuel - 1, by omega⟩
    show FPROG.readTree (k + 1) s (some a) = _
    simp only [FPROG.readTree, h.1, ihl h.2.1 k (by omega), ihr h.2.2 k (by omega)]
    rfl

end
end Located

section
variable {α : Type}

theorem Denotes.inOrder_eq {s : Store α} {t : RedBlackTree} {T : Tree α}
    (h : Denotes s t.root T) : inOrder s t = some T.inOrder := by
  obtain ⟨u, hu, rfl, hh, hn⟩ := h
  rw [FPROG.inOrder, ← hu]
  exact hh.traverse _ (Nat.lt_succ_of_le (Located.height_le_length hh hn))

theorem Denotes.treeAt_eq {s : Store α} {t : RedBlackTree} {T : Tree α}
    (h : Denotes s t.root T) : treeAt s t = some T := by
  obtain ⟨u, hu, rfl, hh, hn⟩ := h
  rw [FPROG.treeAt, ← hu]
  exact hh.readTree _ (Nat.lt_succ_of_le (Located.height_le_length hh hn))

/-- Simulation of `insert`: it succeeds on every denoted tree and returns a pointer denoting
the value-level `insert`. -/
theorem Denotes.insert_sim [LinearOrder α] {s : Store α} {t : RedBlackTree} {T : Tree α}
    (h : Denotes s t.root T) (x : α) :
    ∃ s1 t1, insert s t x = some (s1, t1) ∧ Denotes s1 t1.root (T.insert x) := by
  obtain ⟨u, hu, rfl, hh, hn⟩ := h
  obtain ⟨s1, u1, e1, t1, k1, n1, -, -, -, r1⟩ :=
    Located.insertHelper_sim u s x (s.length + 1) hh hn
      (Nat.lt_succ_of_le (Located.height_le_length hh hn))
  cases u1 with
  | nil => simp [Located.root] at r1
  | node b c l v r =>
    have hlt := k1.lt
    obtain ⟨h0, hl, hr⟩ := k1
    refine ⟨s1 ++ [Node.mk v Color.BLACK l.root r.root], RedBlackTree.mk (some s1.length), ?_,
      Located.node s1.length Color.BLACK l v r, rfl, ?_,
      ⟨Located.getElem?_fresh0 _ _ _, hl.append _, hr.append _⟩, ?_⟩
    · rw [FPROG.insert, ← hu, e1]
      simp only [deref, Located.root, h0, alloc]
    · rw [Tree.insert, ← t1]; rfl
    · simp only [Located.addrs, List.nodup_cons] at n1 ⊢
      refine ⟨fun hb => ?_, n1.2⟩
      have := hlt s1.length (by simp only [Located.addrs, List.mem_cons]; exact Or.inr hb)
      omega

theorem denotes_empty : Denotes ([] : Store α) RedBlackTree.empty.root Tree.nil :=
  ⟨Located.nil, rfl, rfl, trivial, List.nodup_nil⟩

theorem Denotes.insertAll_sim [LinearOrder α] (xs : List α) :
    ∀ {s : Store α} {t : RedBlackTree} {T : Tree α}, Denotes s t.root T →
    ∃ s1 t1, insertAll (s, t) xs = some (s1, t1) ∧ Denotes s1 t1.root (T.insertAll xs) := by
  induction xs with
  | nil => intro s t T h; exact ⟨s, t, rfl, h⟩
  | cons x xs ih =>
    intro s t T h
    obtain ⟨s1, t1, e1, d1⟩ := h.insert_sim x
    obtain ⟨s2, t2, e2, d2⟩ := ih d1
    refine ⟨s2, t2, ?_, d2⟩
    simp only [FPROG.insertAll, e1]
    exact e2

/-- The fold of `main` succeeds and its result denotes the value-level fold. -/
theorem build_denotes [LinearOrder α] (xs : List α) :
    ∃ s t, build xs = some (s, t) ∧ Denotes s t.root (Tree.insertAll Tree.nil xs) :=
  Denotes.insertAll_sim xs denotes_empty

end

namespace Located

section
variable {α : Type}

theorem fixupsFired_of_leftLeaning {s : Store α} {u : Located α} (h : u.Holds s)
    (hu : u.root.isSome = true) (hc : u.erase.LeftLeaning) :
    FPROG.fixupsFired s u.root = some 0 := by
  cases u with
  | nil => simp [root] at hu
  | node a c l v r =>
    obtain ⟨g1, g2, g3⟩ := Tree.fixups_of_leftLeaning hc
    show FPROG.fixupsFired s (some a) = some 0
    simp only [FPROG.fixupsFired, h.guardRotateLeft, h.guardRotateRight, h.guardRecolor, g1, g2,
      g3, applyIf]
    rfl

theorem copyAndFixFired_of_leftLeaning {s : Store α} {a : Nat} {c : Color} {l r : Located α}
    {v : α} (h0 : s[a]? = some (Node.mk v c l.root r.root)) (hl : l.Holds s) (hr : r.Holds s)
    (hc : (Tree.node c l.erase v r.erase).LeftLeaning) :
    FPROG.copyAndFixFired s a = some 0 := by
  have hk : (node s.length c l v r).Holds (s ++ [Node.mk v c l.root r.root]) :=
    ⟨getElem?_fresh0 _ _ _, hl.append _, hr.append _⟩
  simp only [FPROG.copyAndFixFired, h0, alloc]
  exact fixupsFired_of_leftLeaning hk rfl hc

/-- No fix-up statement is executed when the inserted value is present in a left-leaning
search tree. -/
theorem insertHelperFired_of_mem [LinearOrder α] (u : Located α) :
    ∀ (s : Store α) (x : α) (fuel : Nat), u.Holds s → u.addrs.Nodup → u.erase.height < fuel →
      u.erase.LeftLeaning → u.erase.inOrder.Sorted (· < ·) → x ∈ u.erase.inOrder →
      FPROG.insertHelperFired fuel s u.root x = some 0 := by
  induction u with
  | nil =>
    intro s x fuel _ _ _ _ _ hx
    simp [erase, Tree.inOrder] at hx
  | node a c l v r ihl ihr =>
    intro s x fuel h hn hf hc hs hx
    simp only [erase, Tree.height] at hf
    obtain ⟨k, rfl⟩ : ∃ k, fuel = k + 1 := ⟨fuel - 1, by omega⟩
    have hlt := h.lt
    obtain ⟨h0, hl, hr⟩ := h
    simp only [addrs, List.nodup_cons, List.mem_append, not_or] at hn
    obtain ⟨⟨hal, har⟩, hlr⟩ := hn
    obtain ⟨nl, nr, hdis⟩ := List.nodup_append.1 hlr
    have ha : a < s.length := hlt a (by simp [addrs])
    have hc0 := hc
    obtain ⟨-, -, cl, cr⟩ := hc
    simp only [erase, Tree.inOrder, Tree.sorted_append_cons] at hs
    obtain ⟨sl, sr, hlv, hrv⟩ := hs
    simp only [erase, Tree.inOrder, List.mem_append, List.mem_cons] at hx
    show FPROG.insertHelperFired (k + 1) s (some a) x = some 0
    by_cases h1 : x < v
    · have hxl : x ∈ l.erase.inOrder := by
        rcases hx with hx | rfl | hx
        · exact hx
        · exact absurd h1 (lt_irrefl _)
        · exact absurd (lt_trans h1 (hrv x hx)) (lt_irrefl _)
      obtain ⟨s1, l1, e1, t1, k1, n1, m1, len1, f1, -⟩ :=
        insertHelper_sim l s x k hl nl (by omega)
      rw [Tree.insertHelper_of_mem _ x cl sl hxl] at t1
      have hal1 : a ∉ l1.addrs := fun hb => (m1 a hb).elim hal (fun h => by omega)
      have hs1a : s1[a]? = some (Node.mk v c l.root r.root) := by rw [f1 a ha hal]; exact h0
      have hr1 : r.Holds s1 :=
        hr.frame (fun b hb => f1 b (hr.lt b hb) (fun hbl => hdis hbl hb))
      have hs2a : (s1.set a (Node.mk v c l1.root r.root))[a]? =
          some (Node.mk v c l1.root r.root) := List.getElem?_set_self (by omega)
      have key := copyAndFixFired_of_leftLeaning hs2a (k1.set hal1 _) (hr1.set har _)
        (by rw [t1]; exact hc0)
      simp only [FPROG.insertHelperFired, h0, if_pos h1, ihl s x k hl nl (by omega) cl sl hxl, e1,
        setLeft, hs1a, key]
      rfl
    · by_cases h2 : x > v
      · have hxr : x ∈ r.erase.inOrder := by
          rcases hx with hx | rfl | hx
          · exact absurd (lt_trans h2 (hlv x hx)) (lt_irrefl _)
          · exact absurd h2 (lt_irrefl _)
          · exact hx
        obtain ⟨s1, r1, e1, t1, k1, n1, m1, len1, f1, -⟩ :=
          insertHelper_sim r s x k hr nr (by omega)
        rw [Tree.insertHelper_of_mem _ x cr sr hxr] at t1
        have har1 : a ∉ r1.addrs := fun hb => (m1 a hb).elim har (fun h => by omega)
        have hs1a : s1[a]? = some (Node.mk v c l.root r.root) := by rw [f1 a ha har]; exact h0
        have hl1 : l.Holds s1 :=
          hl.frame (fun b hb => f1 b (hl.lt b hb) (fun hbr => hdis hb hbr))
        have hs2a : (s1.set a (Node.mk v c l.root r1.root))[a]? =
            some (Node.mk v c l.root r1.root) := List.getElem?_set_self (by omega)
        have key := copyAndFixFired_of_leftLeaning hs2a (hl1.set hal _) (k1.set har1 _)
          (by rw [t1]; exact hc0)
        simp only [FPROG.insertHelperFired, h0, if_neg h1, if_pos h2,
          ihr s x k hr nr (by omega) cr sr hxr, e1, setRight, hs1a, key]
        rfl
      · simp only [FPROG.insertHelperFired, h0, if_neg h1, if_neg h2]

end
end Located

/-! ## The tree `main` builds: chains of inserts -/

section
variable {α : Type} [LinearOrder α]

/-- The tree `main` builds: the store-level fold returns a pointer that denotes the value-level
fold, which is left-leaning, balanced, black-rooted and ordered. -/
theorem build_spec (tokens : List α) :
    ∃ s t, build tokens = some (s, t) ∧ Denotes s t.root (Tree.insertAll Tree.nil tokens) ∧
      (Tree.insertAll Tree.nil tokens).LeftLeaning ∧ (Tree.insertAll Tree.nil tokens).Balanced ∧
      (Tree.insertAll Tree.nil tokens).isRed = false ∧
      (Tree.insertAll Tree.nil tokens).inOrder.Sorted (· < ·) := by
  obtain ⟨s, t, e, d⟩ := build_denotes tokens
  obtain ⟨h1, h2, h3⟩ := Tree.insertAll_invariant tokens Tree.nil trivial trivial rfl
  exact ⟨s, t, e, d, h1, h2, h3, Tree.sorted_insertAll tokens Tree.nil (by simp [Tree.inOrder])⟩

theorem sortedWords_eq (tokens : List α) :
    sortedWords tokens = some (tokens.toFinset.sort (· ≤ ·)) := by
  obtain ⟨s, t, e, d, -, -, -, -⟩ := build_spec tokens
  simp only [sortedWords, e]
  rw [← Tree.inOrder_insertAll_nil]
  exact d.inOrder_eq

end

/-- C1: folding `insert` over a token list from the empty tree and then calling `inOrder`
returns the strictly ascending list with exactly the tokens as elements, which is the sorted
list of the distinct tokens; it returns `[]` for no tokens and `[0,1,2,3,4,5,6,7,8,9]` for
`[5,3,8,1,4,7,9,2,6,0]`. -/
theorem sortedWords_eq_sorted_distinct :
    (∀ (α : Type) [LinearOrder α] (tokens : List α),
      ∃ l, sortedWords tokens = some l ∧ l.Sorted (· < ·) ∧ (∀ y, y ∈ l ↔ y ∈ tokens) ∧
        l = tokens.toFinset.sort (· ≤ ·)) ∧
    sortedWords ([] : List Nat) = some [] ∧
    sortedWords [5, 3, 8, 1, 4, 7, 9, 2, 6, 0] = some [0, 1, 2, 3, 4, 5, 6, 7, 8, 9] := by
  refine ⟨?_, by decide, by decide⟩
  intro α _ tokens
  obtain ⟨s, t, e, d, -, -, -, hs⟩ := build_spec tokens
  refine ⟨_, ?_, hs, ?_, Tree.inOrder_insertAll_nil tokens⟩
  · simp only [sortedWords, e]
    exact d.inOrder_eq
  · intro y
    rw [Tree.mem_inOrder_insertAll]
    simp [Tree.inOrder]

section
variable {α : Type} [LinearOrder α]

/-- On a chain of inserts: in the tree built from any token list, no red node has a red
child. -/
theorem build_no_red_red (tokens : List α) :
    ∃ s t T, build tokens = some (s, t) ∧ treeAt s t = some T ∧ T.NoRedRed := by
  obtain ⟨s, t, e, d, h, -, -, -⟩ := build_spec tokens
  exact ⟨s, t, _, e, d.treeAt_eq, h.noRedRed⟩

/-- On a chain of inserts: in the tree built from any token list, every path from the root to
an empty subtree passes through the same number of black nodes. -/
theorem build_uniform_black_height (tokens : List α) :
    ∃ s t T, build tokens = some (s, t) ∧ treeAt s t = some T ∧
      ∀ j ∈ T.pathBlackCounts, ∀ k ∈ T.pathBlackCounts, j = k := by
  obtain ⟨s, t, e, d, -, b, -, -⟩ := build_spec tokens
  refine ⟨s, t, _, e, d.treeAt_eq, ?_⟩
  intro j hj k hk
  rw [Tree.pathBlackCounts_of_balanced b j hj, Tree.pathBlackCounts_of_balanced b k hk]

end

/-- C6 on the code: `insert` overwrites a child pointer of the input tree's node.  After
`t2 = insert(t1, 3)` on the tree `t1` built from `[5]`, the root cell of `t1` has the new node
as left child and `inOrder(t1)` is `[3, 5]`, where it was `[5]` before the call; the same
happens with the `insert` of the variant `src/FPROG_Project/main.cpp`. -/
theorem insert_overwrites_input_tree :
    ∃ s1 t1 s2 t2 s3 t3, build [5] = some (s1, t1) ∧ insert s1 t1 3 = some (s2, t2) ∧
      inOrder s1 t1 = some [5] ∧ inOrder s2 t1 = some [3, 5] ∧
      deref s1 t1.root = some (Node.mk 5 Color.BLACK none none) ∧
      deref s2 t1.root = some (Node.mk 5 Color.BLACK (some 2) none) ∧
      Variant2.insert s1 t1 3 = some (s3, t3) ∧ inOrder s3 t1 = some [3, 5] :=
  ⟨_, _, _, _, _, _, rfl, rfl, by decide, by decide, by decide, by decide, rfl, by decide⟩

/-- A further effect of the overwritten child pointer: a second `insert` into the same input
tree starts from the overwritten cells.  With `t1` built from `[5]`, after `insert(t1, 7)` the
call `insert(t1, 9)` returns black 9 with left child red 5, whose right child is red 7. -/
theorem insert_into_overwritten_tree :
    ∃ s1 t1 s2 t2 s3 t3, build [5] = some (s1, t1) ∧ insert s1 t1 7 = some (s2, t2) ∧
      insert s2 t1 9 = some (s3, t3) ∧
      treeAt s3 t3 = some (Tree.node Color.BLACK
        (Tree.node Color.RED Tree.nil 5 (Tree.node Color.RED Tree.nil 7 Tree.nil)) 9 Tree.nil) :=
  ⟨_, _, _, _, _, _, rfl, rfl, rfl, by decide⟩

section
variable {α : Type} [LinearOrder α]

/-- C7: token lists that are permutations of each other give the same `inOrder` sequence when
`insert` is folded over each from the empty tree. -/
theorem sortedWords_perm (xs ys : List α) (h : xs.Perm ys) :
    ∃ l, sortedWords xs = some l ∧ sortedWords ys = some l := by
  refine ⟨_, sortedWords_eq xs, ?_⟩
  rw [sortedWords_eq ys, List.toFinset_eq_of_perm _ _ h]

/-- C7 at a concrete input: `[3, 1, 2]` and `[1, 2, 3]`. -/
theorem sortedWords_perm_witness :
    [3, 1, 2].Perm [1, 2, 3] ∧
      ∃ l, sortedWords [3, 1, 2] = some l ∧ sortedWords [1, 2, 3] = some l :=
  ⟨by decide, sortedWords_perm [3, 1, 2] [1, 2, 3] (by decide)⟩

/-- On a chain of inserts: for the tree built from any token list and any value `x` among the
tokens, `x` occurs in the tree, no fix-up statement (rotate left, rotate right, recolor) is executed at any node
visited by `insert` of `x`, and the returned tree has the same shape, values and colours as
the tree before the call. -/
theorem duplicate_insert_same_tree (tokens : List α) (x : α) (hx : x ∈ tokens) :
    ∃ s t l T s1 t1, build tokens = some (s, t) ∧ inOrder s t = some l ∧ x ∈ l ∧
      treeAt s t = some T ∧ insertHelperFired (s.length + 1) s t.root x = some 0 ∧
      insert s t x = some (s1, t1) ∧ treeAt s1 t1 = some T := by
  obtain ⟨s, t, e, d, hc, -, hr, hs⟩ := build_spec tokens
  obtain ⟨s1, t1, e1, d1⟩ := d.insert_sim x
  have hm : x ∈ (Tree.insertAll Tree.nil tokens).inOrder :=
    (Tree.mem_inOrder_insertAll tokens Tree.nil x).2 (Or.inl hx)
  refine ⟨s, t, _, _, s1, t1, e, d.inOrder_eq, hm, d.treeAt_eq, ?_, e1, ?_⟩
  · obtain ⟨u, hu, hue, hh, hn⟩ := d
    rw [← hu]
    rw [← hue] at hc hs hm
    exact Located.insertHelperFired_of_mem u s x _ hh hn
      (Nat.lt_succ_of_le (Located.height_le_length hh hn)) hc hs hm
  · rw [d1.treeAt_eq, Tree.insert, Tree.insertHelper_of_mem _ x hc hs hm,
      Tree.blacken_of_not_isRed hr]

/-- The chain `[5, 3, 8]` and the value `3`: a duplicate insert without fix-ups. -/
theorem duplicate_insert_same_tree_witness :
    3 ∈ [5, 3, 8] ∧
      ∃ s t l T s1 t1, build [5, 3, 8] = some (s, t) ∧ inOrder s t = some l ∧ 3 ∈ l ∧
        treeAt s t = some T ∧ insertHelperFired (s.length + 1) s t.root 3 = some 0 ∧
        insert s t 3 = some (s1, t1) ∧ treeAt s1 t1 = some T :=
  ⟨by decide, duplicate_insert_same_tree [5, 3, 8] 3 (by decide)⟩

/-- On a chain of inserts: the tree built from any token list holds as many nodes `n` as there
are distinct tokens, and its height `h` satisfies `2 ^ h ≤ (n + 1) ^ 2` and `h ≤ 2 * log2 (n + 1)`. -/
theorem build_height_logarithmic (tokens : List α) :
    ∃ s t T, build tokens = some (s, t) ∧ treeAt s t = some T ∧
      T.size = tokens.toFinset.card ∧ 2 ^ T.height ≤ (T.size + 1) ^ 2 ∧
      T.height ≤ 2 * Nat.log 2 (T.size + 1) := by
  obtain ⟨s, t, e, d, hc, hb, hr, -⟩ := build_spec tokens
  refine ⟨s, t, _, e, d.treeAt_eq, ?_, Tree.pow_height_le _ hc hb hr, ?_⟩
  · rw [Tree.size_eq_length_inOrder, Tree.inOrder_insertAll_nil, Finset.length_sort]
  · have h1 := Tree.height_le _ hc hb
    rw [hr] at h1
    have h2 := Nat.le_log_of_pow_le (by norm_num) (Tree.pow_blackHeight_le _ hb)
    simp only [Bool.false_eq_true, if_false, add_zero] at h1
    omega

end

/-! ## Safety, single steps, and the variant -/

section
variable {α : Type} [LinearOrder α]

/-- Success of `insertHelper` and `insert` on every denoted tree: `insertHelper` returns a
present node and `insert` wraps its black copy. -/
theorem Denotes.insert_runs {s : Store α} {t : RedBlackTree} {T : Tree α}
    (h : Denotes s t.root T) (x : α) :
    ∃ s0 a s1 n, insertHelper (s.length + 1) s t.root x = some (s0, some a) ∧
      s0[a]? = some n ∧ Denotes s0 (some a) (T.insertHelper x) ∧
      insert s t x = some (s1, RedBlackTree.mk (some s0.length)) ∧
      s1 = s0 ++ [Node.mk n.value Color.BLACK n.left n.right] ∧
      Denotes s1 (some s0.length) (T.insert x) := by
  obtain ⟨u, hu, rfl, hh, hn⟩ := h
  obtain ⟨s1, u1, e1, t1, k1, n1, -, -, -, r1⟩ :=
    Located.insertHelper_sim u s x (s.length + 1) hh hn
      (Nat.lt_succ_of_le (Located.height_le_length hh hn))
  cases u1 with
  | nil => simp [Located.root] at r1
  | node b c l v r =>
    have hlt := k1.lt
    have k0 := k1
    obtain ⟨h0, hl, hr⟩ := k1
    refine ⟨s1, b, _, _, ?_, h0, ⟨Located.node b c l v r, rfl, t1, k0, n1⟩, ?_, rfl,
      Located.node s1.length Color.BLACK l v r, rfl, ?_,
      ⟨Located.getElem?_fresh0 _ _ _, hl.append _, hr.append _⟩, ?_⟩
    · rw [← hu]; exact e1
    · rw [FPROG.insert, ← hu, e1]
      simp only [deref, Located.root, h0, alloc]
    · rw [Tree.insert, ← t1]; rfl
    · simp only [Located.addrs, List.nodup_cons] at n1 ⊢
      refine ⟨fun hb => ?_, n1.2⟩
      have := hlt s1.length (by simp only [Located.addrs, List.mem_cons]; exact Or.inr hb)
      omega

end

section
variable {α : Type}

theorem isRed_eq_true {s : Store α} {p : NodePtr} (h : isRed s p = some true) :
    ∃ n, deref s p = some n ∧ n.color = Color.RED := by
  cases p with
  | none => simp [isRed] at h
  | some a =>
    simp only [isRed, Option.map_eq_some'] at h
    obtain ⟨n, hn, hc⟩ := h
    exact ⟨n, hn, of_decide_eq_true hc⟩

theorem guardRotateRight_eq_true {s : Store α} {p : NodePtr}
    (h : guardRotateRight s p = some true) :
    ∃ n l, deref s p = some n ∧ deref s n.left = some l ∧ l.color = Color.RED := by
  simp only [guardRotateRight, getLeft, Option.bind_eq_bind, Option.bind_eq_some,
    Option.map_eq_some'] at h
  obtain ⟨q, ⟨n, hn, rfl⟩, b, hb, h⟩ := h
  cases b with
  | false => simp at h
  | true =>
    obtain ⟨l, hl, hc⟩ := isRed_eq_true hb
    exact ⟨n, l, hn, hl, hc⟩

theorem guardRecolor_eq_true {s : Store α} {p : NodePtr} (h : guardRecolor s p = some true) :
    ∃ n l r, deref s p = some n ∧ deref s n.left = some l ∧ deref s n.right = some r ∧
      l.color = Color.RED ∧ r.color = Color.RED := by
  simp only [guardRecolor, getLeft, getRight, Option.bind_eq_bind, Option.bind_eq_some,
    Option.map_eq_some'] at h
  obtain ⟨q, ⟨n, hn, rfl⟩, b, hb, h⟩ := h
  cases b with
  | false => simp at h
  | true =>
    simp only [if_true, Option.bind_eq_some, Option.map_eq_some'] at h
    obtain ⟨q2, ⟨n2, hn2, rfl⟩, h⟩ := h
    rw [hn] at hn2
    cases hn2
    obtain ⟨l, hl, hc⟩ := isRed_eq_true hb
    obtain ⟨r, hr, hcr⟩ := isRed_eq_true h
    exact ⟨n, l, r, hn, hl, hr, hc, hcr⟩

theorem rotateRight_of_guard {s : Store α} {p : NodePtr}
    (h : guardRotateRight s p = some true) : ∃ s1 a, rotateRight s p = some (s1, some a) := by
  obtain ⟨n, l, hn, hl, -⟩ := guardRotateRight_eq_true h
  simp only [rotateRight, hn, hl, alloc]
  exact ⟨_, _, rfl⟩

theorem recolor_of_guard {s : Store α} {p : NodePtr}
    (h : guardRecolor s p = some true) : ∃ s1 a, recolor s p = some (s1, some a) := by
  obtain ⟨n, l, r, hn, hl, hr, -, -⟩ := guardRecolor_eq_true h
  simp only [recolor, hn, hl, hr, alloc]
  exact ⟨_, _, rfl⟩

end

section
variable {α : Type} [LinearOrder α]

/-- C11: `insert` runs to completion on every tree, whatever its shape and colouring, and every
value: `insertHelper` returns a present node, so the reads of `newRoot->value`, `left` and
`right` in `insert` are defined; a pointer that `isRed` accepts is present, so `left->left` is
read from a present node; and wherever the guard of the second or third fix-up holds, the left
child (both children) of the node are present, so `rotateRight` (`recolor`) reads only present
nodes. -/
theorem insert_never_fails (s : Store α) (t : RedBlackTree) (T : Tree α)
    (h : Denotes s t.root T) (x : α) :
    (∃ s0 a n s1 t1, insertHelper (s.length + 1) s t.root x = some (s0, some a) ∧
      s0[a]? = some n ∧ insert s t x = some (s1, t1) ∧ Denotes s1 t1.root (T.insert x)) ∧
    (∀ (s2 : Store α) (p : NodePtr), isRed s2 p = some true → ∃ q, getLeft s2 p = some q) ∧
    (∀ (s2 : Store α) (p : NodePtr), guardRotateRight s2 p = some true →
      (∃ n l, deref s2 p = some n ∧ deref s2 n.left = some l) ∧
      ∃ s3 a, rotateRight s2 p = some (s3, some a)) ∧
    (∀ (s2 : Store α) (p : NodePtr), guardRecolor s2 p = some true →
      (∃ n l r, deref s2 p = some n ∧ deref s2 n.left = some l ∧ deref s2 n.right = some r) ∧
      ∃ s3 a, recolor s2 p = some (s3, some a)) := by
  refine ⟨?_, ?_, ?_, ?_⟩
  · obtain ⟨s0, a, s1, n, e0, hn, -, e1, -, d1⟩ := h.insert_runs x
    exact ⟨s0, a, n, s1, _, e0, hn, e1, d1⟩
  · intro s2 p hp
    obtain ⟨n, hn, -⟩ := isRed_eq_true hp
    exact ⟨n.left, by simp [getLeft, hn]⟩
  · intro s2 p hg
    obtain ⟨n, l, hn, hl, -⟩ := guardRotateRight_eq_true hg
    exact ⟨⟨n, l, hn, hl⟩, rotateRight_of_guard hg⟩
  · intro s2 p hg
    obtain ⟨n, l, r, hn, hl, hr, -, -⟩ := guardRecolor_eq_true hg
    exact ⟨⟨n, l, r, hn, hl, hr⟩, recolor_of_guard hg⟩

/-- The store `rightRedStore` holds `rightRedTree` under `rightRedRoot`. -/
theorem denotes_rightRed : Denotes rightRedStore rightRedRoot.root rightRedTree :=
  ⟨Located.node 1 Color.BLACK Located.nil 10
      (Located.node 0 Color.RED Located.nil 20 Located.nil),
    rfl, rfl, ⟨rfl, trivial, rfl, trivial, trivial⟩, by decide⟩

/-- C11 at a concrete input: the tree black 10 with red right child 20 and the value 30. -/
theorem insert_never_fails_witness :
    Denotes rightRedStore rightRedRoot.root rightRedTree ∧
      ∃ s0 a n s1 t1,
        insertHelper (rightRedStore.length + 1) rightRedStore rightRedRoot.root 30 =
          some (s0, some a) ∧
        s0[a]? = some n ∧ insert rightRedStore rightRedRoot 30 = some (s1, t1) ∧
        Denotes s1 t1.root (rightRedTree.insert 30) :=
  ⟨denotes_rightRed, (insert_never_fails _ _ _ denotes_rightRed 30).1⟩

/-- C12: for every tree and every value, `insert` returns a non-empty tree whose root node is
coloured BLACK; hence the tree built from any token list is empty or has a black root. -/
theorem insert_root_black (s : Store α) (t : RedBlackTree) (T : Tree α)
    (h : Denotes s t.root T) (x : α) :
    (∃ s1 t1 n, insert s t x = some (s1, t1) ∧ deref s1 t1.root = some n ∧
      n.color = Color.BLACK) ∧
    ∀ tokens : List α, ∃ s2 t2, build tokens = some (s2, t2) ∧
      (t2.root = none ∨ ∃ n, deref s2 t2.root = some n ∧ n.color = Color.BLACK) := by
  constructor
  · obtain ⟨s0, a, s1, n, -, -, -, e1, rfl, -⟩ := h.insert_runs x
    exact ⟨_, _, _, e1, Located.getElem?_fresh0 _ _ _, rfl⟩
  · intro tokens
    obtain ⟨s2, t2, e, ⟨u, hu, hue, hh, -⟩, -, -, hr, -⟩ := build_spec tokens
    refine ⟨s2, t2, e, ?_⟩
    cases u with
    | nil => exact Or.inl hu.symm
    | node a c l v r =>
      right
      refine ⟨_, by rw [← hu]; exact hh.1, ?_⟩
      rw [← hue] at hr
      cases c
      · simp [Located.erase, Tree.isRed] at hr
      · rfl

/-- C12 at a concrete input: the tree black 10 with red right child 20 and the value 30. -/
theorem insert_root_black_witness :
    Denotes rightRedStore rightRedRoot.root rightRedTree ∧
      ∃ s1 t1 n, insert rightRedStore rightRedRoot 30 = some (s1, t1) ∧
        deref s1 t1.root = some n ∧ n.color = Color.BLACK :=
  ⟨denotes_rightRed, (insert_root_black _ _ _ denotes_rightRed 30).1⟩

/-- C14: in any store, `insert` of `x` into the empty tree returns a tree of exactly one node:
it holds `x`, is coloured BLACK and has no left and no right child. -/
theorem insert_empty_single_black (s : Store α) (x : α) :
    ∃ s1 t1, insert s RedBlackTree.empty x = some (s1, t1) ∧
      deref s1 t1.root = some (Node.mk x Color.BLACK none none) ∧
      treeAt s1 t1 = some (Tree.node Color.BLACK Tree.nil x Tree.nil) := by
  have e : insert s RedBlackTree.empty x =
      some (s ++ [Node.mk x Color.RED none none, Node.mk x Color.BLACK none none],
        RedBlackTree.mk (some (s.length + 1))) := by
    simp [insert, RedBlackTree.empty, insertHelper, alloc, deref]
  refine ⟨_, _, e, Located.getElem?_fresh1 _ _ _ _, ?_⟩
  have hk : (Located.node (s.length + 1) Color.BLACK Located.nil x Located.nil).Holds
      (s ++ [Node.mk x Color.RED none none, Node.mk x Color.BLACK none none]) :=
    ⟨Located.getElem?_fresh1 _ _ _ _, trivial, trivial⟩
  exact hk.readTree _ (by simp [Located.erase, Tree.height])

end

section
variable {α : Type}

/-- C15: for a node `n` at address `a` whose right child `r` is present, `rotateLeft` returns
a new node holding `r`'s value and `n`'s colour, whose left child is a new node holding `n`'s
value, coloured RED, with children `n.left` and `r.left`, and whose right child is `r.right`;
the cells of the store it started from are unchanged. -/
theorem rotateLeft_result (s : Store α) (a ra : Nat) (n r : Node α)
    (hn : s[a]? = some n) (hra : n.right = some ra) (hr : s[ra]? = some r) :
    ∃ s1 p top inner, rotateLeft s (some a) = some (s1, p) ∧ deref s1 p = some top ∧
      top.value = r.value ∧ top.color = n.color ∧ top.right = r.right ∧
      deref s1 top.left = some inner ∧
      inner = Node.mk n.value Color.RED n.left r.left ∧
      ∀ b, b < s.length → s1[b]? = s[b]? := by
  refine ⟨s ++ [Node.mk n.value Color.RED n.left r.left,
      Node.mk r.value n.color (some s.length) r.right], some (s.length + 1), _, _, ?_,
    Located.getElem?_fresh1 _ _ _ _, rfl, rfl, rfl, Located.getElem?_fresh0 _ _ _, rfl, ?_⟩
  · simp only [rotateLeft, hn, hra, hr, alloc, List.append_assoc, List.length_append,
      List.length_singleton, List.singleton_append]
  · intro b hb
    exact List.getElem?_append_left hb

/-- C15 at a concrete input: the node 10 of `rightRedStore` and its right child 20. -/
theorem rotateLeft_result_witness :
    rightRedStore[1]? = some (Node.mk 10 Color.BLACK none (some 0)) ∧
    (Node.mk 10 Color.BLACK none (some 0) : Node Nat).right = some 0 ∧
    rightRedStore[0]? = some (Node.mk 20 Color.RED none none) ∧
    ∃ s1 p top inner, rotateLeft rightRedStore (some 1) = some (s1, p) ∧
      deref s1 p = some top ∧ top.value = 20 ∧ top.color = Color.BLACK ∧ top.right = none ∧
      deref s1 top.left = some inner ∧ inner = Node.mk 10 Color.RED none none ∧
      ∀ b, b < rightRedStore.length → s1[b]? = rightRedStore[b]? :=
  ⟨rfl, rfl, rfl, rotateLeft_result rightRedStore 1 0 _ _ rfl rfl rfl⟩

end

section
variable {α : Type} [LinearOrder α]

/-- The strictly ascending list with the tokens as elements is what `main` returns. -/
theorem sortedWords_eq_of_sorted (tokens l : List α) (hs : l.Sorted (· < ·))
    (hm : ∀ y, y ∈ l ↔ y ∈ tokens) : sortedWords tokens = some l := by
  rw [sortedWords_eq]
  congr 1
  refine List.eq_of_perm_of_sorted ?_ (Finset.sort_sorted _ _) hs.le_of_lt
  refine (List.perm_ext_iff_of_nodup (Finset.sort_nodup _ _) hs.nodup).2 ?_
  intro y
  rw [Finset.mem_sort, List.mem_toFinset, hm]

end

/-- C13: the tree compares the strings as they are: inserting "the", "quick", "fox", "the",
"Fox" in that order and calling `inOrder` returns "Fox", "fox", "quick", "the": lexicographic
order, the two "the" collapsed, "Fox" and "fox" both kept.  (`std::string` compares character
by character, as the order on `String` does.) -/
theorem sortedWords_case_sensitive :
    sortedWords ["the", "quick", "fox", "the", "Fox"] = some ["Fox", "fox", "quick", "the"] := by
  apply sortedWords_eq_of_sorted
  · have h1 : "Fox" < "fox" := String.lt_iff_toList_lt.2 (by decide)
    have h2 : "fox" < "quick" := String.lt_iff_toList_lt.2 (by decide)
    have h3 : "quick" < "the" := String.lt_iff_toList_lt.2 (by decide)
    simp only [List.sorted_cons, List.mem_cons, List.mem_singleton, List.not_mem_nil,
      forall_eq_or_imp, forall_eq, List.sorted_nil, and_true, false_imp_iff, implies_true]
    exact ⟨⟨h1, h1.trans h2, (h1.trans h2).trans h3⟩, ⟨h2, h2.trans h3⟩, h3⟩
  · intro y
    simp only [List.mem_cons, List.mem_singleton, List.not_mem_nil, or_false]
    tauto

section
variable {α : Type}

theorem Tree.LeftLeaning.noRedRight {t : Tree α} (h : t.LeftLeaning) : t.NoRedRight := by
  induction t with
  | nil => trivial
  | node c l v r ihl ihr => exact ⟨h.1, ihl h.2.2.1, ihr h.2.2.2⟩

end

/-- The tree `rightRedTree` satisfies the five invariants of the data model: search-tree order,
no red node with a red child, uniform black height, black root, no duplicate value. -/
theorem rightRedTree_valid :
    rightRedTree.IsBST ∧ rightRedTree.NoRedRed ∧
      (∀ j ∈ rightRedTree.pathBlackCounts, ∀ k ∈ rightRedTree.pathBlackCounts, j = k) ∧
      rightRedTree.isRed = false ∧ rightRedTree.inOrder.Nodup := by
  refine ⟨?_, ?_, by decide, rfl, by decide⟩
  · simp [rightRedTree, Tree.IsBST, Tree.inOrder]
  · simp [rightRedTree, Tree.NoRedRed, Tree.isRed]

theorem rightRedTree_not_noRedRight : ¬ rightRedTree.NoRedRight := by
  simp [rightRedTree, Tree.NoRedRight, Tree.isRed]

section
variable {α : Type} [LinearOrder α]

/-- On a chain of inserts: in the tree built from any token list no node has a red right child
and the root is not red, so every red node is a left child; and not every tree allowed by invariants 1-5 is of
this kind: black 10 with the red right child 20 satisfies them and has a red right child. -/
theorem build_left_leaning (tokens : List α) :
    (∃ s t T, build tokens = some (s, t) ∧ treeAt s t = some T ∧ T.NoRedRight ∧
      T.isRed = false) ∧
    (rightRedTree.IsBST ∧ rightRedTree.NoRedRed ∧
      (∀ j ∈ rightRedTree.pathBlackCounts, ∀ k ∈ rightRedTree.pathBlackCounts, j = k) ∧
      rightRedTree.isRed = false ∧ rightRedTree.inOrder.Nodup) ∧
    ¬ rightRedTree.NoRedRight := by
  obtain ⟨s, t, e, d, h, -, hr, -⟩ := build_spec tokens
  exact ⟨⟨s, t, _, e, d.treeAt_eq, h.noRedRight, hr⟩, rightRedTree_valid,
    rightRedTree_not_noRedRight⟩

end

/-- The tree black 10 with red right child 20 satisfies invariants 1-5 and is built by no chain
of inserts; `insert` of 30 into it returns black 30 with left child red 10, whose right
child is red 20: a red node with a red child. -/
theorem insert_rightRed_red_red :
    (rightRedTree.IsBST ∧ rightRedTree.NoRedRed ∧
      (∀ j ∈ rightRedTree.pathBlackCounts, ∀ k ∈ rightRedTree.pathBlackCounts, j = k) ∧
      rightRedTree.isRed = false ∧ rightRedTree.inOrder.Nodup) ∧
    treeAt rightRedStore rightRedRoot = some rightRedTree ∧
    (∀ (tokens : List Nat) (s : Store Nat) (t : RedBlackTree),
      build tokens = some (s, t) → treeAt s t ≠ some rightRedTree) ∧
    ∃ s1 t1, insert rightRedStore rightRedRoot 30 = some (s1, t1) ∧
      treeAt s1 t1 = some (Tree.node Color.BLACK
        (Tree.node Color.RED Tree.nil 10 (Tree.node Color.RED Tree.nil 20 Tree.nil))
        30 Tree.nil) ∧
      ¬ (Tree.node Color.BLACK
        (Tree.node Color.RED Tree.nil 10 (Tree.node Color.RED Tree.nil 20 Tree.nil))
        30 Tree.nil).NoRedRed := by
  refine ⟨rightRedTree_valid, by decide, ?_, _, _, rfl, by decide, ?_⟩
  · intro tokens s t e ht
    obtain ⟨s2, t2, e2, d, h, -, -, -⟩ := build_spec tokens
    rw [e] at e2
    cases e2
    rw [d.treeAt_eq] at ht
    have hT : Tree.insertAll Tree.nil tokens = rightRedTree := Option.some.inj ht
    rw [hT] at h
    exact rightRedTree_not_noRedRight h.noRedRight
  · simp [Tree.NoRedRed, Tree.isRed]

section
variable {α : Type}

theorem Extends.inOrder_root {s s1 : Store α} {u u1 : Located α} (h : Extends s u s1 u1) :
    inOrder s1 (RedBlackTree.mk u1.root) = some u1.erase.inOrder :=
  Denotes.inOrder_eq (t := RedBlackTree.mk u1.root) ⟨u1, rfl, rfl, h.1, h.2.1⟩

/-- C18: for a node at address `a` denoting a tree with left subtree `l`, value `v` and right
subtree `r`: with a right child, `rotateLeft` returns a node with the same `inOrder` sequence;
with a left child, so does `rotateRight`; with both children, so does `recolor`; and without a
right child `rotateLeft` returns the node itself in the unchanged store. -/
theorem local_transformations_keep_order (s : Store α) (a : Nat) (c : Color)
    (l r : Tree α) (v : α) (h : Denotes s (some a) (Tree.node c l v r)) :
    inOrder s (RedBlackTree.mk (some a)) = some (l.inOrder ++ v :: r.inOrder) ∧
    (r ≠ Tree.nil → ∃ s1 p, rotateLeft s (some a) = some (s1, p) ∧
      inOrder s1 (RedBlackTree.mk p) = some (l.inOrder ++ v :: r.inOrder)) ∧
    (l ≠ Tree.nil → ∃ s1 p, rotateRight s (some a) = some (s1, p) ∧
      inOrder s1 (RedBlackTree.mk p) = some (l.inOrder ++ v :: r.inOrder)) ∧
    (l ≠ Tree.nil → r ≠ Tree.nil → ∃ s1 p, recolor s (some a) = some (s1, p) ∧
      inOrder s1 (RedBlackTree.mk p) = some (l.inOrder ++ v :: r.inOrder)) ∧
    (r = Tree.nil → rotateLeft s (some a) = some (s, some a)) := by
  have h0 := Denotes.inOrder_eq (t := RedBlackTree.mk (some a)) h
  obtain ⟨u, hu, hue, hh, hn⟩ := h
  cases u with
  | nil => cases hu
  | node b cu ul vu ur =>
    cases hu
    simp only [Located.erase, Tree.node.injEq] at hue
    obtain ⟨rfl, rfl, rfl, rfl⟩ := hue
    refine ⟨h0, ?_, ?_, ?_, ?_⟩
    · intro _
      obtain ⟨s1, u1, e1, t1, x1, -⟩ := Located.rotateLeft_sim hh hn
      refine ⟨s1, u1.root, e1, ?_⟩
      rw [x1.inOrder_root, t1, Tree.inOrder_rotateLeft]; rfl
    · intro hl
      cases ul with
      | nil => exact absurd rfl hl
      | node la lc ll lv lr =>
        obtain ⟨s1, u1, e1, t1, x1, -⟩ := Located.rotateRight_sim hh hn
        refine ⟨s1, u1.root, e1, ?_⟩
        rw [x1.inOrder_root, t1, Tree.inOrder_rotateRight]; rfl
    · intro hl hr
      cases ul with
      | nil => exact absurd rfl hl
      | node la lc ll lv lr =>
        cases ur with
        | nil => exact absurd rfl hr
        | node ra rc rl rv rr =>
          obtain ⟨s1, u1, e1, t1, x1, -⟩ := Located.recolor_sim hh hn
          refine ⟨s1, u1.root, e1, ?_⟩
          rw [x1.inOrder_root, t1, Tree.inOrder_recolor]; rfl
    · intro hr
      cases ur with
      | nil =>
        have h1 : s[a]? = some (Node.mk _ _ ul.root none) := hh.1
        simp [rotateLeft, h1]
      | node ra rc rl rv rr => cases hr

/-- The store `bothRedStore` holds black 2 with the red children 1 and 3 at address 2. -/
theorem denotes_bothRed :
    Denotes bothRedStore (some 2)
      (Tree.node Color.BLACK (Tree.node Color.RED Tree.nil 1 Tree.nil) 2
        (Tree.node Color.RED Tree.nil 3 Tree.nil)) :=
  ⟨Located.node 2 Color.BLACK (Located.node 0 Color.RED Located.nil 1 Located.nil) 2
      (Located.node 1 Color.RED Located.nil 3 Located.nil),
    rfl, rfl, ⟨rfl, ⟨rfl, trivial, trivial⟩, rfl, trivial, trivial⟩, by decide⟩

/-- C18 at a concrete input: the node black 2 with the red children 1 and 3. -/
theorem local_transformations_keep_order_witness :
    Denotes bothRedStore (some 2)
      (Tree.node Color.BLACK (Tree.node Color.RED Tree.nil 1 Tree.nil) 2
        (Tree.node Color.RED Tree.nil 3 Tree.nil)) ∧
    inOrder bothRedStore (RedBlackTree.mk (some 2)) = some [1, 2, 3] ∧
    (∃ s1 p, rotateLeft bothRedStore (some 2) = some (s1, p) ∧
      inOrder s1 (RedBlackTree.mk p) = some [1, 2, 3]) ∧
    (∃ s1 p, rotateRight bothRedStore (some 2) = some (s1, p) ∧
      inOrder s1 (RedBlackTree.mk p) = some [1, 2, 3]) ∧
    (∃ s1 p, recolor bothRedStore (some 2) = some (s1, p) ∧
      inOrder s1 (RedBlackTree.mk p) = some [1, 2, 3]) :=
  have key := local_transformations_keep_order bothRedStore 2 _ _ _ _ denotes_bothRed
  ⟨denotes_bothRed, key.1, key.2.1 (by simp), key.2.2.1 (by simp),
    key.2.2.2.1 (by simp) (by simp)⟩

end

namespace Located

section
variable {α : Type}

/-- The fix-ups of the variant, applied to the visited node itself. -/
theorem fixInPlace_sim {s : Store α} {a : Nat} {c : Color} {l r : Located α} {v : α}
    (h0 : s[a]? = some (Node.mk v c l.root r.root)) (hl : l.Holds s) (hr : r.Holds s)
    (hn : (l.addrs ++ r.addrs).Nodup) (hal : a ∉ l.addrs) (har : a ∉ r.addrs) :
    ∃ (s1 : Store α) (u1 : Located α), FPROG.fixups s (some a) = some (s1, u1.root) ∧
      u1.erase = (Tree.node c l.erase v r.erase).fixups ∧ u1.Holds s1 ∧ u1.addrs.Nodup ∧
      (∀ b ∈ u1.addrs, b = a ∨ b ∈ l.addrs ∨ b ∈ r.addrs ∨ s.length ≤ b) ∧
      (∃ e, s1 = s ++ e) ∧ u1.root.isSome = true := by
  have hk : (node a c l v r).Holds s := ⟨h0, hl, hr⟩
  have hd : (node a c l v r).addrs.Nodup :=
    List.nodup_cons.2 ⟨fun hb => (List.mem_append.1 hb).elim hal har, hn⟩
  obtain ⟨s1, u1, e1, e2, ⟨k1, n1, m1, e, rfl⟩, r1⟩ := fixups_sim hk hd rfl
  refine ⟨_, u1, e1, e2, k1, n1, ?_, ⟨_, rfl⟩, r1⟩
  intro b hb
  rcases m1 b hb with hb | hb
  · simp only [addrs, List.mem_cons, List.mem_append] at hb
    tauto
  · exact Or.inr (Or.inr (Or.inr hb))

/-- Simulation of the variant `insertHelper`, as `insertHelper_sim`. -/
theorem insertHelper_sim2 [LinearOrder α] (u : Located α) :
    ∀ (s : Store α) (x : α) (fuel : Nat), u.Holds s → u.addrs.Nodup → u.erase.height < fuel →
    ∃ (s1 : Store α) (u1 : Located α),
      Variant2.insertHelper fuel s u.root x = some (s1, u1.root) ∧
      u1.erase = u.erase.insertHelper x ∧ u1.Holds s1 ∧ u1.addrs.Nodup ∧
      (∀ b ∈ u1.addrs, b ∈ u.addrs ∨ s.length ≤ b) ∧ s.length ≤ s1.length ∧
      (∀ b, b < s.length → b ∉ u.addrs → s1[b]? = s[b]?) ∧ u1.root.isSome = true := by
  induction u with
  | nil =>
    intro s x fuel _ _ hf
    obtain ⟨k, rfl⟩ : ∃ k, fuel = k + 1 := ⟨fuel - 1, by omega⟩
    refine ⟨s ++ [Node.mk x Color.RED none none], node s.length Color.RED nil x nil, rfl, rfl,
      ⟨getElem?_fresh0 _ _ _, trivial, trivial⟩, by simp [addrs], ?_, by simp, ?_, rfl⟩
    · intro b hb
      simp only [addrs, List.append_nil, List.mem_singleton] at hb
      right; omega
    · intro b hb _
      exact List.getElem?_append_left hb
  | node a c l v r ihl ihr =>
    intro s x fuel h hn hf
    simp only [erase, Tree.height] at hf
    obtain ⟨k, rfl⟩ : ∃ k, fuel = k + 1 := ⟨fuel - 1, by omega⟩
    have hlt := h.lt
    obtain ⟨h0, hl, hr⟩ := h
    simp only [addrs, List.nodup_cons, List.mem_append, not_or] at hn
    obtain ⟨⟨hal, har⟩, hlr⟩ := hn
    obtain ⟨nl, nr, hdis⟩ := List.nodup_append.1 hlr
    have ha : a < s.length := hlt a (by simp [addrs])
    by_cases h1 : x < v
    · obtain ⟨s1, l1, e1, t1, k1, n1, m1, len1, f1, -⟩ := ihl s x k hl nl (by omega)
      have hal1 : a ∉ l1.addrs := fun hb => (m1 a hb).elim hal (fun h => by omega)
      have hs1a : s1[a]? = some (Node.mk v c l.root r.root) := by rw [f1 a ha hal]; exact h0
      have hr1 : r.Holds s1 :=
        hr.frame (fun b hb => f1 b (hr.lt b hb) (fun hbl => hdis hbl hb))
      have hs2a : (s1.set a (Node.mk v c l1.root r.root))[a]? =
          some (Node.mk v c l1.root r.root) := List.getElem?_set_self (by omega)
      have hn2 : (l1.addrs ++ r.addrs).Nodup := by
        refine List.nodup_append.2 ⟨n1, nr, ?_⟩
        intro b hb1 hb2
        rcases m1 b hb1 with hb | hb
        · exact hdis hb hb2
        · have := hr.lt b hb2; omega
      obtain ⟨s4, u4, e4, t4, k4, n4, m4, ⟨e, he⟩, r4⟩ :=
        fixInPlace_sim hs2a (k1.set hal1 _) (hr1.set har _) hn2 hal1 har
      refine ⟨s4, u4, ?_, ?_, k4, n4, ?_, ?_, ?_, r4⟩
      · show Variant2.insertHelper (k + 1) s (some a) x = _
        simp only [Variant2.insertHelper, h0, if_pos h1, e1, setLeft, hs1a]
        exact e4
      · rw [t4, t1]
        simp only [erase, Tree.insertHelper, if_pos h1]
      · intro b hb
        simp only [addrs, List.mem_cons, List.mem_append]
        rcases m4 b hb with hb | hb | hb | hb
        · exact Or.inl (Or.inl hb)
        · rcases m1 b hb with hb | hb
          · tauto
          · exact Or.inr hb
        · tauto
        · right
          simp only [List.length_set] at hb
          omega
      · rw [he]; simp only [List.length_append, List.length_set]; omega
      · intro b hb hnb
        simp only [addrs, List.mem_cons, List.mem_append, not_or] at hnb
        rw [he, List.getElem?_append_left (by simp only [List.length_set]; omega),
          List.getElem?_set_ne (Ne.symm hnb.1)]
        exact f1 b hb hnb.2.1
    · by_cases h2 : x > v
      · obtain ⟨s1, r1, e1, t1, k1, n1, m1, len1, f1, -⟩ := ihr s x k hr nr (by omega)
        have har1 : a ∉ r1.addrs := fun hb => (m1 a hb).elim har (fun h => by omega)
        have hs1a : s1[a]? = some (Node.mk v c l.root r.root) := by rw [f1 a ha har]; exact h0
        have hl1 : l.Holds s1 :=
          hl.frame (fun b hb => f1 b (hl.lt b hb) (fun hbr => hdis hb hbr))
        have hs2a : (s1.set a (Node.mk v c l.root r1.root))[a]? =
            some (Node.mk v c l.root r1.root) := List.getElem?_set_self (by omega)
        have hn2 : (l.addrs ++ r1.addrs).Nodup := by
          refine List.nodup_append.2 ⟨nl, n1, ?_⟩
          intro b hb1 hb2
          rcases m1 b hb2 with hb | hb
          · exact hdis hb1 hb
          · have := hl.lt b hb1; omega
        obtain ⟨s4, u4, e4, t4, k4, n4, m4, ⟨e, he⟩, r4⟩ :=
          fixInPlace_sim hs2a (hl1.set hal _) (k1.set har1 _) hn2 hal har1
        refine ⟨s4, u4, ?_, ?_, k4, n4, ?_, ?_, ?_, r4⟩
        · show Variant2.insertHelper (k + 1) s (some a) x = _
          simp only [Variant2.insertHelper, h0, if_neg h1, if_pos h2, e1, setRight, hs1a]
          exact e4
        · rw [t4, t1]
          simp only [erase, Tree.insertHelper, if_neg h1, if_pos h2]
        · intro b hb
          simp only [addrs, List.mem_cons, List.mem_append]
          rcases m4 b hb with hb | hb | hb | hb
          · exact Or.inl (Or.inl hb)
          · tauto
          · rcases m1 b hb with hb | hb
            · tauto
            · exact Or.inr hb
          · right
            simp only [List.length_set] at hb
            omega
        · rw [he]; simp only [List.length_append, List.length_set]; omega
        · intro b hb hnb
          simp only [addrs, List.mem_cons, List.mem_append, not_or] at hnb
          rw [he, List.getElem?_append_left (by simp only [List.length_set]; omega),
            List.getElem?_set_ne (Ne.symm hnb.1)]
          exact f1 b hb hnb.2.2
      · refine ⟨s, node a c l v r, ?_, ?_, ⟨h0, hl, hr⟩, ?_, fun b hb => Or.inl hb, le_refl _,
          fun _ _ _ => rfl, rfl⟩
        · show Variant2.insertHelper (k + 1) s (some a) x = _
          simp only [Variant2.insertHelper, h0, if_neg h1, if_neg h2]
          rfl
        · simp only [erase, Tree.insertHelper, if_neg h1, if_neg h2]
        · simp only [addrs, List.nodup_cons, List.mem_append, not_or]
          exact ⟨⟨hal, har⟩, hlr⟩

end
end Located

section
variable {α : Type} [LinearOrder α]

/-- Simulation of the variant `insert`: it succeeds on every denoted tree and returns a pointer
denoting the value-level `insert`. -/
theorem Denotes.insert_sim2 {s : Store α} {t : RedBlackTree} {T : Tree α}
    (h : Denotes s t.root T) (x : α) :
    ∃ s1 t1, Variant2.insert s t x = some (s1, t1) ∧ Denotes s1 t1.root (T.insert x) := by
  obtain ⟨u, hu, rfl, hh, hn⟩ := h
  obtain ⟨s1, u1, e1, t1, k1, n1, -, -, -, r1⟩ :=
    Located.insertHelper_sim2 u s x (s.length + 1) hh hn
      (Nat.lt_succ_of_le (Located.height_le_length hh hn))
  cases u1 with
  | nil => simp [Located.root] at r1
  | node b c l v r =>
    have hlt := k1.lt
    obtain ⟨h0, hl, hr⟩ := k1
    refine ⟨s1 ++ [Node.mk v Color.BLACK l.root r.root], RedBlackTree.mk (some s1.length), ?_,
      Located.node s1.length Color.BLACK l v r, rfl, ?_,
      ⟨Located.getElem?_fresh0 _ _ _, hl.append _, hr.append _⟩, ?_⟩
    · rw [Variant2.insert, ← hu, e1]
      simp only [deref, Located.root, h0, alloc]
    · rw [Tree.insert, ← t1]; rfl
    · simp only [Located.addrs, List.nodup_cons] at n1 ⊢
      refine ⟨fun hb => ?_, n1.2⟩
      have := hlt s1.length (by simp only [Located.addrs, List.mem_cons]; exact Or.inr hb)
      omega

/-- C19: on stores that each hold a copy of the same tree, the `insert` of
`src/FPROG_Project/main.cpp` and the `insert` of `src/FPROG_Project/FPROG_Project/main.cpp`
both succeed and return trees with the same shape, values and colours. -/
theorem variants_same_tree (s s2 : Store α) (t t2 : RedBlackTree) (T : Tree α)
    (h : Denotes s t.root T) (h2 : Denotes s2 t2.root T) (x : α) :
    ∃ s1 t1 s3 t3 R, insert s t x = some (s1, t1) ∧ Variant2.insert s2 t2 x = some (s3, t3) ∧
      treeAt s1 t1 = some R ∧ treeAt s3 t3 = some R := by
  obtain ⟨s1, t1, e1, d1⟩ := h.insert_sim x
  obtain ⟨s3, t3, e3, d3⟩ := h2.insert_sim2 x
  exact ⟨s1, t1, s3, t3, _, e1, e3, d1.treeAt_eq, d3.treeAt_eq⟩

/-- C19 at a concrete input: the tree black 10 with red right child 20 and the value 30. -/
theorem variants_same_tree_witness :
    Denotes rightRedStore rightRedRoot.root rightRedTree ∧
      ∃ s1 t1 s3 t3 R, insert rightRedStore rightRedRoot 30 = some (s1, t1) ∧
        Variant2.insert rightRedStore rightRedRoot 30 = some (s3, t3) ∧
        treeAt s1 t1 = some R ∧ treeAt s3 t3 = some R :=
  ⟨denotes_rightRed,
    variants_same_tree _ _ _ _ _ denotes_rightRed denotes_rightRed 30⟩

end

/-! ## Sequences of `insert` calls that insert into a tree more than once -/

/-- C4 on the code: `t1 = insert(empty, 5)`, `insert(t1, 7)`, then `insert(t1, 9)` returns
black 9 with left child red 5, whose right child is red 7: a red node with a red child.  The
second call overwrote the right pointer of the node of `t1`, and the third call starts from
that overwritten node. -/
theorem reused_tree_red_red :
    lastReturned [(0, 5), (1, 7), (1, 9)] =
      some (Tree.node Color.BLACK
        (Tree.node Color.RED Tree.nil 5 (Tree.node Color.RED Tree.nil 7 Tree.nil))
        9 Tree.nil) ∧
    ¬ (Tree.node Color.BLACK
        (Tree.node Color.RED Tree.nil 5 (Tree.node Color.RED Tree.nil 7 Tree.nil))
        9 Tree.nil).NoRedRed := by
  refine ⟨by decide, ?_⟩
  simp [Tree.NoRedRed, Tree.isRed]

/-- C5 on the code: with `t1` the tree built from 5 then 3, `insert(t1, 4)` followed by
`insert(t1, 1)` returns black 5 whose left child is red 3 with the black children 1 and 4 and
whose right child is absent: the paths through 3 pass two black nodes, the path to the right
of 5 only one. -/
theorem reused_tree_black_height :
    lastReturned [(0, 5), (1, 3), (2, 4), (2, 1)] =
      some (Tree.node Color.BLACK
        (Tree.node Color.RED (Tree.node Color.BLACK Tree.nil 1 Tree.nil) 3
          (Tree.node Color.BLACK Tree.nil 4 Tree.nil))
        5 Tree.nil) ∧
    (Tree.node Color.BLACK
        (Tree.node Color.RED (Tree.node Color.BLACK Tree.nil 1 Tree.nil) 3
          (Tree.node Color.BLACK Tree.nil 4 Tree.nil))
        5 Tree.nil).pathBlackCounts = [2, 2, 2, 2, 1] ∧
    ¬ ∀ j ∈ [2, 2, 2, 2, 1], ∀ k ∈ [2, 2, 2, 2, 1], j = k := by
  exact ⟨by decide, by decide, by decide⟩

/-- C9 on the code: the tree `t3` returned by `t1 = insert(empty, 5)`, `insert(t1, 7)`,
`insert(t1, 9)` holds 5, 7 and 9.  `insert(t3, 7)` executes three fix-up statements at the
nodes above 7 and returns black 7 with the black children 5 and 9, a tree of another shape
and colouring than `t3`. -/
theorem reused_tree_duplicate_rebalances :
    ∃ s ts t s1 t1, runProgram [(0, 5), (1, 7), (1, 9)] = some (s, ts) ∧
      ts.getLast? = some t ∧
      treeAt s t = some (Tree.node Color.BLACK
        (Tree.node Color.RED Tree.nil 5 (Tree.node Color.RED Tree.nil 7 Tree.nil))
        9 Tree.nil) ∧
      inOrder s t = some [5, 7, 9] ∧
      insertHelperFired (s.length + 1) s t.root 7 = some 3 ∧
      insert s t 7 = some (s1, t1) ∧
      treeAt s1 t1 = some (Tree.node Color.BLACK (Tree.node Color.BLACK Tree.nil 5 Tree.nil) 7
        (Tree.node Color.BLACK Tree.nil 9 Tree.nil)) :=
  ⟨_, _, _, _, _, rfl, rfl, by decide, by decide, by decide, rfl, by decide⟩

/-- C10 on the code: seven `insert` calls that insert three times into the first tree and
twice into the third return a tree of 6 nodes, each the only child of its parent: its height
is 6, and `2 ^ 6 = 64` exceeds `(6 + 1) ^ 2 = 49`. -/
theorem reused_tree_height :
    lastReturned [(0, 1), (1, 2), (1, 7), (1, 3), (3, 6), (5, 4), (3, 7)] =
      some (Tree.node Color.BLACK
        (Tree.node Color.RED
          (Tree.node Color.RED Tree.nil 1
            (Tree.node Color.RED Tree.nil 2
              (Tree.node Color.RED (Tree.node Color.RED Tree.nil 3 Tree.nil) 4 Tree.nil)))
          6 Tree.nil)
        7 Tree.nil) ∧
    (Tree.node Color.BLACK
        (Tree.node Color.RED
          (Tree.node Color.RED Tree.nil 1
            (Tree.node Color.RED Tree.nil 2
              (Tree.node Color.RED (Tree.node Color.RED Tree.nil 3 Tree.nil) 4 Tree.nil)))
          6 Tree.nil)
        7 Tree.nil).size = 6 ∧
    (Tree.node Color.BLACK
        (Tree.node Color.RED
          (Tree.node Color.RED Tree.nil 1
            (Tree.node Color.RED Tree.nil 2
              (Tree.node Color.RED (Tree.node Color.RED Tree.nil 3 Tree.nil) 4 Tree.nil)))
          6 Tree.nil)
        7 Tree.nil).height = 6 ∧
    ¬ 2 ^ 6 ≤ (6 + 1) ^ 2 := by
  exact ⟨by decide, by decide, by decide, by decide⟩

/-- C16 on the code: `t1 = insert(empty, 5)`, `insert(t1, 7)`, then `insert(t1, 9)` returns
black 9 with left child red 5, whose right child is the red node 7: a red right child. -/
theorem reused_tree_red_right :
    lastReturned [(0, 5), (1, 7), (1, 9)] =
      some (Tree.node Color.BLACK
        (Tree.node Color.RED Tree.nil 5 (Tree.node Color.RED Tree.nil 7 Tree.nil))
        9 Tree.nil) ∧
    ¬ (Tree.node Color.BLACK
        (Tree.node Color.RED Tree.nil 5 (Tree.node Color.RED Tree.nil 7 Tree.nil))
        9 Tree.nil).NoRedRight := by
  refine ⟨by decide, ?_⟩
  simp [Tree.NoRedRight, Tree.isRed]

/-- C17 on the code: the tree black 10 with the red right child 20 is returned by `insert`:
`t1 = insert(empty, 10)`, `insert(t1, 20)`, then `insert(t1, 10)` returns it, the second call
having overwritten the right pointer of the node of `t1`.  `insert` of 30 into the returned
tree gives black 30 with left child red 10, whose right child is red 20. -/
theorem rightRedTree_returned_by_insert :
    lastReturned [(0, 10), (1, 20), (1, 10)] = some rightRedTree ∧
    lastReturned [(0, 10), (1, 20), (1, 10), (3, 30)] =
      some (Tree.node Color.BLACK
        (Tree.node Color.RED Tree.nil 10 (Tree.node Color.RED Tree.nil 20 Tree.nil))
        30 Tree.nil) ∧
    ¬ (Tree.node Color.BLACK
        (Tree.node Color.RED Tree.nil 10 (Tree.node Color.RED Tree.nil 20 Tree.nil))
        30 Tree.nil).NoRedRed := by
  refine ⟨by decide, by decide, ?_⟩
  simp [Tree.NoRedRed, Tree.isRed]

end FPROG
